import Mathlib

set_option maxHeartbeats 1000000

/-!
Verification of the BusTub buffer-pool core: the LRU-K replacer
(src/buffer/lru_k_replacer.cpp, src/include/buffer/lru_k_replacer.h), the disk
scheduler (src/storage/disk/disk_scheduler.cpp) and the page guards
(src/storage/page/page_guard.cpp).

The C++ code is shallowly embedded: each C++ method becomes a Lean function on
an explicit state; machine integers become Nat (frame ids, sizes, timestamps)
or Int (page ids); C++ exceptions become Except; the per-call wall-clock
timestamp of RecordAccess becomes an explicit timestamp argument supplied by
the caller of the model (see recordedTimestamp for how the source obtains it).
-/

/-! ## LRU-K node (src/include/buffer/lru_k_replacer.h, class LRUKNode) -/

/-- One tracked frame inside the replacer: access history (oldest timestamp in
front, newest at back), the constant k, the frame id and the evictable flag.
Mirrors class LRUKNode of lru_k_replacer.h. -/
structure LRUKNode where
  history : List Nat
  k : Nat
  fid : Nat
  is_evictable : Bool
deriving Repr, DecidableEq

/-- LRUKNode::GetBackwardKDistance (lru_k_replacer.h lines 33-39): returns 0
when fewer than k accesses are recorded, otherwise history_.front().  The
headD default stands for the C++ front() applied to a non-empty list; the
emptiness question is settled separately by the safety checker below. -/
def LRUKNode.GetBackwardKDistance (n : LRUKNode) : Nat :=
  if n.history.length < n.k then 0 else n.history.headD 0

/-- LRUKNode::RecordAccess (lru_k_replacer.h lines 40-45): pop_front when the
history already holds k entries, then push_back the timestamp.  List.tail
stands for pop_front; on an empty history the C++ pop_front is undefined
behaviour, which the safety checker below makes explicit. -/
def LRUKNode.RecordAccess (n : LRUKNode) (timestamp : Nat) : LRUKNode :=
  { n with history :=
      (if n.history.length = n.k then n.history.tail else n.history) ++ [timestamp] }

/-- LRUKNode::SetEvictable (lru_k_replacer.h line 47). -/
def LRUKNode.SetEvictable (n : LRUKNode) (set_evictable : Bool) : LRUKNode :=
  { n with is_evictable := set_evictable }

/-- The node ordering LRUKNode::operator< (lru_k_replacer.h lines 52-57): when
both nodes have fewer than k accesses compare the most recent access
(history_.back()), otherwise compare the GetBackwardKDistance values.
getLastD stands for back() on a non-empty list. -/
def LRUKNode.lt (n other : LRUKNode) : Bool :=
  if n.history.length < n.k ∧ other.history.length < other.k then
    decide (n.history.getLastD 0 < other.history.getLastD 0)
  else
    decide (n.GetBackwardKDistance < other.GetBackwardKDistance)

/-! Safety checkers: one Bool per history access site of the C++ code, true
exactly when the site touches a non-empty list (claim C10). -/

/-- True when LRUKNode::RecordAccess would not pop_front an empty history:
pop_front runs only when history_.size() == k_. -/
def LRUKNode.RecordAccessSafe (n : LRUKNode) : Bool :=
  !(n.history.length == n.k && n.history.isEmpty)

/-- True when LRUKNode::GetBackwardKDistance would not call front() on an
empty history: front() runs only when history_.size() >= k_. -/
def LRUKNode.FrontSafe (n : LRUKNode) : Bool :=
  decide (n.history.length < n.k) || !n.history.isEmpty

/-- True when LRUKNode::operator< touches only non-empty histories: the first
branch calls back() on both histories, the second calls
GetBackwardKDistance on both nodes. -/
def LRUKNode.ltSafe (n other : LRUKNode) : Bool :=
  if n.history.length < n.k ∧ other.history.length < other.k then
    !n.history.isEmpty && !other.history.isEmpty
  else
    n.FrontSafe && other.FrontSafe

/-! ## LRU-K replacer (src/buffer/lru_k_replacer.cpp) -/

/-- The two exception kinds the replacer can raise: OUT_OF_RANGE from
RecordAccess (lru_k_replacer.cpp line 97) and the invalid-state exception
from Remove on a non-evictable frame (line 222). -/
inductive ReplacerError
  | outOfRange
  | invalidState
deriving Repr, DecidableEq

/-- Replacer state: node_store_ maps a frame id to its node (the C++ map also
stores the frame's list iterator, which in this positional embedding is
recovered from lru_list_), lru_list_ keeps the tracked frames with the best
eviction candidate nearest the front, curr_size_ counts evictable frames,
replacer_size_ is the capacity N and k_ the constant k.  Frame ids are
embedded as Nat, following the data model (a frame identifier is a
non-negative integer below N). -/
structure LRUKReplacer where
  node_store : Nat → Option LRUKNode
  lru_list : List Nat
  curr_size : Nat
  replacer_size : Nat
  k : Nat

/-- LRUKReplacer constructor (lru_k_replacer.cpp line 31). -/
def LRUKReplacer.init (num_frames k : Nat) : LRUKReplacer :=
  { node_store := fun _ => none, lru_list := [], curr_size := 0,
    replacer_size := num_frames, k := k }

/-- Dereference of node_store_.find(fid)->second.first; the default node
stands for the C++ dereference of a missing entry, which never happens on
the paths proved below (membership invariant). -/
def LRUKReplacer.nodeOf (s : LRUKReplacer) (fid : Nat) : LRUKNode :=
  (s.node_store fid).getD { history := [], k := 0, fid := 0, is_evictable := false }

/-- The insertion loop of LRUKReplacer::RecordAccess (lru_k_replacer.cpp lines
106-117 and 128-140): walk the list and insert fid before the first element
whose node the new node compares less than; push_back when the walk reaches
the end. -/
def insertBeforeLt (s : LRUKReplacer) (n : LRUKNode) (fid : Nat) : List Nat → List Nat
  | [] => [fid]
  | x :: xs =>
    if n.lt (s.nodeOf x) then fid :: x :: xs else x :: insertBeforeLt s n fid xs

/-- LRUKReplacer::RecordAccess (lru_k_replacer.cpp lines 94-161): reject an
out-of-range frame id with OUT_OF_RANGE, then either create a node seen for
the first time and insert it into the ordered list (scan from the list
head), or update the existing node and re-insert it scanning from the
position after its previous one (the C++ erases the stored iterator and
scans from std::next of it).  The timestamp argument stands for the value
the C++ reads from the wall clock at this call (see recordedTimestamp). -/
def LRUKReplacer.RecordAccess (s : LRUKReplacer) (frame_id timestamp : Nat) :
    Except ReplacerError LRUKReplacer :=
  if s.replacer_size ≤ frame_id then .error .outOfRange
  else
    match s.node_store frame_id with
    | none =>
      let n := (LRUKNode.mk [] s.k frame_id false).RecordAccess timestamp
      .ok { s with
        node_store := fun x => if x = frame_id then some n else s.node_store x,
        lru_list := insertBeforeLt s n frame_id s.lru_list }
    | some n0 =>
      let n := n0.RecordAccess timestamp
      let tw := s.lru_list.takeWhile (fun x => x != frame_id)
      let dw := (s.lru_list.dropWhile (fun x => x != frame_id)).tail
      .ok { s with
        node_store := fun x => if x = frame_id then some n else s.node_store x,
        lru_list := tw ++ insertBeforeLt s n frame_id dw }

/-- LRUKReplacer::Evict (lru_k_replacer.cpp lines 48-79): return none when
curr_size_ is 0, otherwise scan lru_list_ from the front and evict the
first evictable frame, erasing its list entry and node and decrementing
curr_size_. -/
def LRUKReplacer.Evict (s : LRUKReplacer) : Option Nat × LRUKReplacer :=
  if s.curr_size = 0 then (none, s)
  else
    match s.lru_list.find? (fun f => (s.nodeOf f).is_evictable) with
    | some frame_id =>
      (some frame_id,
        { s with
          lru_list := s.lru_list.erase frame_id,
          node_store := fun x => if x = frame_id then none else s.node_store x,
          curr_size := s.curr_size - 1 })
    | none => (none, s)

/-- LRUKReplacer::SetEvictable (lru_k_replacer.cpp lines 180-197): no-op on an
unknown frame or when the flag already has the requested value, otherwise
flip the flag and adjust curr_size_ by one. -/
def LRUKReplacer.SetEvictable (s : LRUKReplacer) (frame_id : Nat)
    (set_evictable : Bool) : LRUKReplacer :=
  match s.node_store frame_id with
  | none => s
  | some n =>
    if n.is_evictable = set_evictable then s
    else
      { s with
        node_store := fun x =>
          if x = frame_id then some (n.SetEvictable set_evictable)
          else s.node_store x,
        curr_size := if set_evictable then s.curr_size + 1 else s.curr_size - 1 }

/-- LRUKReplacer::Remove (lru_k_replacer.cpp lines 216-227): return unchanged
on an unknown frame, raise the invalid-state exception on a non-evictable
frame, otherwise erase the frame and its history and decrement
curr_size_. -/
def LRUKReplacer.Remove (s : LRUKReplacer) (frame_id : Nat) :
    Except ReplacerError LRUKReplacer :=
  match s.node_store frame_id with
  | none => .ok s
  | some n =>
    if n.is_evictable = false then .error .invalidState
    else
      .ok { s with
        lru_list := s.lru_list.erase frame_id,
        node_store := fun x => if x = frame_id then none else s.node_store x,
        curr_size := s.curr_size - 1 }

/-- LRUKReplacer::Size (lru_k_replacer.cpp line 236). -/
def LRUKReplacer.Size (s : LRUKReplacer) : Nat := s.curr_size

/-! ## Operation traces over the replacer -/

/-- One replacer call; record carries the timestamp the wall clock yields at
that call. -/
inductive ROp
  | record (frame_id timestamp : Nat)
  | setEv (frame_id : Nat) (b : Bool)
  | evict
  | remove (frame_id : Nat)
deriving Repr, DecidableEq

/-- Apply one call to the state; a thrown exception leaves the state unchanged
(both C++ throw sites run before any mutation). -/
def LRUKReplacer.step (s : LRUKReplacer) : ROp → LRUKReplacer
  | .record fid ts =>
    match s.RecordAccess fid ts with
    | .ok s' => s'
    | .error _ => s
  | .setEv fid b => s.SetEvictable fid b
  | .evict => (s.Evict).2
  | .remove fid =>
    match s.Remove fid with
    | .ok s' => s'
    | .error _ => s

/-- Run a call sequence. -/
def LRUKReplacer.run (s : LRUKReplacer) : List ROp → LRUKReplacer
  | [] => s
  | op :: ops => (s.step op).run ops

/-- Timestamp discipline of the intended monotonic counter: every record call
carries a timestamp at least the running bound (strictly larger than every
earlier one), starting from 1. -/
def validOps : Nat → List ROp → Bool
  | _, [] => true
  | b, op :: ops =>
    match op with
    | .record _ ts => decide (b ≤ ts) && validOps (ts + 1) ops
    | _ => validOps b ops

/-- Counters of the size-changing transitions of a trace, in order: real
false-to-true SetEvictable transitions, real true-to-false transitions,
successful Evicts, successful Removes. -/
def countTrans (s : LRUKReplacer) : List ROp → Nat × Nat × Nat × Nat
  | [] => (0, 0, 0, 0)
  | op :: ops =>
    let c := countTrans (s.step op) ops
    match op with
    | .record _ _ => c
    | .setEv fid b =>
      match s.node_store fid with
      | none => c
      | some n =>
        if n.is_evictable = b then c
        else if b then (c.1 + 1, c.2.1, c.2.2.1, c.2.2.2)
        else (c.1, c.2.1 + 1, c.2.2.1, c.2.2.2)
    | .evict =>
      if (s.Evict).1.isSome then (c.1, c.2.1, c.2.2.1 + 1, c.2.2.2) else c
    | .remove fid =>
      match s.node_store fid with
      | none => c
      | some n => if n.is_evictable then (c.1, c.2.1, c.2.2.1, c.2.2.2 + 1) else c

/-- State after running a call sequence on a fresh replacer of capacity
num_frames with parameter k. -/
def runReplacer (num_frames k : Nat) (ops : List ROp) : LRUKReplacer :=
  (LRUKReplacer.init num_frames k).run ops

/-- Safety of the history accesses performed by one RecordAccess call (claim
C10): the pop_front of the accessed node and the back()/front() reads of
every comparison the insertion scans can make.  Evict, SetEvictable and
Remove read no history element (Evict only copies histories for its debug
print), so record is the only call checked. -/
def LRUKReplacer.recordAccessSafe (s : LRUKReplacer) (frame_id timestamp : Nat) : Bool :=
  if s.replacer_size ≤ frame_id then true
  else
    match s.node_store frame_id with
    | none =>
      let base : LRUKNode := LRUKNode.mk [] s.k frame_id false
      base.RecordAccessSafe &&
        (let n := base.RecordAccess timestamp
         s.lru_list.all fun x => n.ltSafe (s.nodeOf x))
    | some n0 =>
      n0.RecordAccessSafe &&
        (let n := n0.RecordAccess timestamp
         ((s.lru_list.dropWhile (fun x => x != frame_id)).tail).all fun x =>
           n.ltSafe (s.nodeOf x))

/-- Safety of one replacer call. -/
def LRUKReplacer.opSafe (s : LRUKReplacer) : ROp → Bool
  | .record fid ts => s.recordAccessSafe fid ts
  | _ => true

/-- Safety of a whole trace. -/
def LRUKReplacer.opsSafe (s : LRUKReplacer) : List ROp → Bool
  | [] => true
  | op :: ops => s.opSafe op && (s.step op).opsSafe ops

/-! ## The specification's eviction order (for claim C1) -/

/-- Specification-side victim order, written from the spec's words (spec.md
section 4.1): frame a is a strictly better victim than frame b when a has
the larger backward-K-distance, where fewer than k accesses means distance
plus-infinity; among two infinite-distance frames the earlier most-recent
access (classical LRU) wins; among two finite-distance frames the one whose
k-th most recent access is older wins (at any current time t the distance
t minus history front is larger exactly when the front is smaller). -/
def SpecVictimPrecedes (a b : LRUKNode) : Prop :=
  if a.history.length < a.k then
    if b.history.length < b.k then a.history.getLastD 0 < b.history.getLastD 0
    else True
  else
    if b.history.length < b.k then False
    else a.history.headD 0 < b.history.headD 0

/-! ## Timestamp source of RecordAccess (for claim C2) -/

/-- Timestamp source of LRUKReplacer::RecordAccess (lru_k_replacer.cpp lines
100-101): the call reads std::chrono::system_clock::now() and truncates it
to whole seconds with to_time_t.  Under a clock trace giving the wall-clock
second at each call, the i-th call records clock i.  Nothing increments a
counter; the member current_timestamp_ of lru_k_replacer.h stays unused. -/
def recordedTimestamp (clock : Nat → Nat) (i : Nat) : Nat := clock i

/-! ## Disk scheduler (src/storage/disk/disk_scheduler.cpp) -/

/-- One disk request (struct DiskRequest): direction, the bytes the buffer
holds, and the page id.  The single-shot callback promise is represented by
the result slot the worker model below pairs with each request. -/
structure DiskRequest where
  is_write : Bool
  data : List Nat
  page_id : Int
deriving Repr, DecidableEq

/-- DiskScheduler::Schedule (disk_scheduler.cpp lines 41-44) together with the
request channel.  Modelled from the spec for the channel itself: the
Channel class is not under src/, the spec (section 4.2) fixes it as a FIFO
queue, so Schedule appends to the back. -/
def schedule (queue : List (Option DiskRequest)) (r : DiskRequest) :
    List (Option DiskRequest) :=
  queue ++ [some r]

/-- Shutdown enqueue of the DiskScheduler destructor (disk_scheduler.cpp line
28): put the std::nullopt sentinel. -/
def scheduleShutdown (queue : List (Option DiskRequest)) : List (Option DiskRequest) :=
  queue ++ [none]

/-- DiskScheduler::StartWorkerThread (disk_scheduler.cpp lines 54-80) run over
the queue contents: dequeue; exit on the sentinel; otherwise dispatch
WritePage or ReadPage on the Disk Manager and then call set_value(true) on
the request's promise.  The oracle fails tells which Disk Manager calls
throw; the C++ has no handler, so a throw escapes the loop: the promise of
the failing request is never fulfilled (its slot stays none) and no later
request is processed.  The Bool result is true when the worker exited
through the sentinel. -/
def startWorkerThread (fails : DiskRequest → Bool) :
    List (Option DiskRequest) → List (DiskRequest × Option Bool) × Bool
  | [] => ([], false)
  | none :: _ => ([], true)
  | some r :: rest =>
    if fails r then ([(r, none)], false)
    else
      let out := startWorkerThread fails rest
      ((r, some true) :: out.1, out.2)

/-! ## Frame header and page guards (src/storage/page/page_guard.cpp) -/

/-- The frame fields the guards touch.  The FrameHeader declaration itself is
not under src/; fields follow the spec's data model (section 3) and the
accesses in page_guard.cpp (frame_id_, pin_count_, is_dirty_, GetData,
GetDataMut).  Latches are not represented: the embedding is sequential. -/
structure FrameHeader where
  frame_id : Nat
  page_data : List Nat
  pin_count : Nat
  is_dirty : Bool
deriving Repr, DecidableEq

/-- Identity and validity of a read guard (page ids keep the C++ int32 sign
convention, hence Int). -/
structure ReadPageGuard where
  page_id : Int
  is_valid : Bool
deriving Repr, DecidableEq

/-- Identity and validity of a write guard. -/
structure WritePageGuard where
  page_id : Int
  is_valid : Bool
deriving Repr, DecidableEq

/-- ReadPageGuard::Flush (page_guard.cpp lines 140-158): abort (none) on an
invalid guard; when the frame is dirty, clear is_dirty_ under the frame
latch, build a write request carrying the frame's bytes and the guard's
page id, schedule it and wait on the future.  The wait makes the call
synchronous, so the model runs the worker on the single request and returns
its completed slot list; a clean frame schedules nothing. -/
def ReadPageGuard.Flush (g : ReadPageGuard) (f : FrameHeader)
    (fails : DiskRequest → Bool) :
    Option (FrameHeader × List (DiskRequest × Option Bool)) :=
  if g.is_valid then
    if f.is_dirty then
      let f' := { f with is_dirty := false }
      let r : DiskRequest := { is_write := true, data := f.page_data, page_id := g.page_id }
      some (f', (startWorkerThread fails [some r]).1)
    else some (f, [])
  else none

/-- WritePageGuard::Flush (page_guard.cpp lines 318-340): same body as the
read guard's flush (the commented-out lines 335-338 of the source would
instead clear the dirty flag only after a successful future.get()). -/
def WritePageGuard.Flush (g : WritePageGuard) (f : FrameHeader)
    (fails : DiskRequest → Bool) :
    Option (FrameHeader × List (DiskRequest × Option Bool)) :=
  if g.is_valid then
    if f.is_dirty then
      let f' := { f with is_dirty := false }
      let r : DiskRequest := { is_write := true, data := f.page_data, page_id := g.page_id }
      some (f', (startWorkerThread fails [some r]).1)
    else some (f, [])
  else none

/-- The shared state a guard's Drop touches: the frame and the frame's
evictable bit inside the replacer (the replacer call
SetEvictable(frame_id, true) is abstracted to setting that bit). -/
structure DropState where
  frame : FrameHeader
  evictable : Bool
deriving Repr, DecidableEq

/-- ReadPageGuard::Drop (page_guard.cpp lines 171-183): nothing on an invalid
guard; otherwise invalidate the guard, release the shared latch, read the
prior pin count while decrementing (pin_count_--), and when the prior count
was 1 re-check the count under the buffer pool latch and mark the frame
evictable exactly when it is 0. -/
def ReadPageGuard.Drop (g : ReadPageGuard) (st : DropState) :
    ReadPageGuard × DropState :=
  if g.is_valid then
    let cnt := st.frame.pin_count
    let f : FrameHeader := { st.frame with pin_count := st.frame.pin_count - 1 }
    if cnt = 1 ∧ f.pin_count = 0 then
      ({ g with is_valid := false }, { frame := f, evictable := true })
    else
      ({ g with is_valid := false }, { st with frame := f })
  else (g, st)

/-- WritePageGuard::Drop (page_guard.cpp lines 353-368): as the read guard's
drop, but first unconditionally set is_dirty_ under the frame latch, and
release the exclusive latch; the decrement is pin_count_.fetch_sub(1). -/
def WritePageGuard.Drop (g : WritePageGuard) (st : DropState) :
    WritePageGuard × DropState :=
  if g.is_valid then
    let f0 : FrameHeader := { st.frame with is_dirty := true }
    let cnt := f0.pin_count
    let f : FrameHeader := { f0 with pin_count := f0.pin_count - 1 }
    if cnt = 1 ∧ f.pin_count = 0 then
      ({ g with is_valid := false }, { frame := f, evictable := true })
    else
      ({ g with is_valid := false }, { st with frame := f })
  else (g, st)

/-! ## Several guards on one frame (for claim C5) -/

/-- One frame together with the guards issued on it: each guard is a pair
(is_valid, is_write_guard). -/
structure FrameSys where
  st : DropState
  guards : List (Bool × Bool)
deriving Repr, DecidableEq

/-- Guard events on the frame: issue a new guard, or drop the i-th one (the
destructor path is the same Drop call). -/
inductive GEvent
  | acquire (isWrite : Bool)
  | drop (i : Nat)
deriving Repr, DecidableEq

/-- Modelled from the spec: guard issuance.  The buffer pool manager's source
is not under src/; per the spec (section 4.3 Lifecycle) the BPM has already
incremented pin_count before constructing a guard, and per the invariant of
section 3 a frame held by a guard is never evictable, so issuance pins the
frame and marks it non-evictable. -/
def FrameSys.acquire (s : FrameSys) (isWrite : Bool) : FrameSys :=
  { st := { frame := { s.st.frame with pin_count := s.st.frame.pin_count + 1 },
            evictable := false },
    guards := s.guards ++ [(true, isWrite)] }

/-- Drop of the i-th guard, dispatching to the read or write guard Drop from
page_guard.cpp. -/
def FrameSys.drop (s : FrameSys) (i : Nat) : FrameSys :=
  let gi := s.guards.getD i (false, false)
  if gi.2 then
    let r := WritePageGuard.Drop { page_id := 0, is_valid := gi.1 } s.st
    { st := r.2, guards := s.guards.set i (r.1.is_valid, gi.2) }
  else
    let r := ReadPageGuard.Drop { page_id := 0, is_valid := gi.1 } s.st
    { st := r.2, guards := s.guards.set i (r.1.is_valid, gi.2) }

/-- Apply one guard event. -/
def FrameSys.step (s : FrameSys) : GEvent → FrameSys
  | .acquire w => s.acquire w
  | .drop i => s.drop i

/-- Run a guard event sequence. -/
def FrameSys.run (s : FrameSys) : List GEvent → FrameSys
  | [] => s
  | e :: evs => (s.step e).run evs

/-- Number of live guards. -/
def FrameSys.live (s : FrameSys) : Nat := (s.guards.filter fun g => g.1).length

/-- A frame with no guards yet. -/
def FrameSys.start : FrameSys :=
  { st := { frame := { frame_id := 0, page_data := [], pin_count := 0, is_dirty := false },
            evictable := false },
    guards := [] }

/-! ## Invariants of reachable replacer states -/

/-- Sort key a node occupies in lru_list_: nodes with fewer than k accesses
(infinite backward-K-distance) sort by most recent access in bucket 0,
before all full-history nodes, which sort by their k-th most recent access
in bucket 1.  On histories that are non-empty with positive entries this is
exactly the order of LRUKNode.lt (lemma lt_iff_keyLt below). -/
def nodeKey (n : LRUKNode) : Nat × Nat :=
  if n.history.length < n.k then (0, n.history.getLastD 0)
  else (1, n.history.headD 0)

/-- Strict lexicographic order on sort keys. -/
def keyLt (a b : Nat × Nat) : Prop :=
  a.1 < b.1 ∨ (a.1 = b.1 ∧ a.2 < b.2)

/-- Well-formedness of one node's history under timestamp bound B: the node
carries the replacer's k, holds between 1 and k entries, strictly
increasing, all in the interval from 1 up to (excluding) B. -/
def histOK (kk B : Nat) (n : LRUKNode) : Prop :=
  n.k = kk ∧ 1 ≤ n.history.length ∧ n.history.length ≤ kk ∧
  n.history.Chain' (· < ·) ∧ ∀ t ∈ n.history, 1 ≤ t ∧ t < B

/-- Structural invariant of the replacer state, independent of any timestamp
discipline: lru_list_ is duplicate-free, tracks exactly the node_store_
keys, holds only frame ids below the capacity, and curr_size_ counts the
evictable tracked frames. -/
structure InvB (s : LRUKReplacer) : Prop where
  nodup : s.lru_list.Nodup
  mem_iff : ∀ f : Nat, f ∈ s.lru_list ↔ (s.node_store f).isSome
  fid_lt : ∀ f ∈ s.lru_list, f < s.replacer_size
  size_eq : s.curr_size = (s.lru_list.filter fun f => (s.nodeOf f).is_evictable).length

/-- Full invariant; holds on states reached with strictly increasing positive
timestamps below B: additionally every tracked history is well formed,
lru_list_ is sorted by the node key, and histories of distinct frames share
no timestamp. -/
structure InvS (s : LRUKReplacer) (B : Nat) : Prop where
  basic : InvB s
  posB : 1 ≤ B
  hist : ∀ f ∈ s.lru_list, histOK s.k B (s.nodeOf f)
  sorted : s.lru_list.Pairwise fun a c =>
    keyLt (nodeKey (s.nodeOf a)) (nodeKey (s.nodeOf c))
  disj : s.lru_list.Pairwise fun a c =>
    ∀ t ∈ (s.nodeOf a).history, t ∉ (s.nodeOf c).history

/-- History non-emptiness: every tracked frame's access history holds at least
one timestamp.  Unlike InvS this needs no discipline on the timestamp
values at all (they may repeat or decrease, as the wall-clock source can
produce): a node is created by its first access and a history only ever
grows or is dropped whole. -/
def InvH (s : LRUKReplacer) : Prop :=
  ∀ f ∈ s.lru_list, (s.nodeOf f).history ≠ []

/-! ## Generic list lemmas -/

/-- Membership of headD on a non-empty list. -/
theorem headD_mem {l : List Nat} (h : l ≠ []) : l.headD 0 ∈ l := by
  cases l with
  | nil => exact absurd rfl h
  | cons x xs => simp

/-- Membership of getLastD on a non-empty list. -/
theorem getLastD_mem : ∀ (l : List Nat) (d : Nat), l ≠ [] → l.getLastD d ∈ l
  | [], _, h => absurd rfl h
  | [x], d, _ => by simp
  | x :: y :: ys, d, _ => by
    rw [List.getLastD_cons]
    exact List.mem_cons_of_mem _ (getLastD_mem (y :: ys) x (by simp))

/-- getLastD of an appended singleton. -/
theorem getLastD_append_singleton : ∀ (l : List Nat) (a d : Nat),
    (l ++ [a]).getLastD d = a
  | [], _, _ => by simp
  | x :: xs, a, d => by
    rw [List.cons_append, List.getLastD_cons]
    exact getLastD_append_singleton xs a x

/-- headD of an appended list keeps the head of a non-empty front. -/
theorem headD_append_of_ne {l : List Nat} (l' : List Nat) (d : Nat) (h : l ≠ []) :
    (l ++ l').headD d = l.headD d := by
  cases l with
  | nil => exact absurd rfl h
  | cons x xs => simp

/-- Pairwise transport along a pointwise implication restricted to members. -/
theorem pairwise_imp_mem {α : Type} {R S : α → α → Prop} :
    ∀ {l : List α}, (∀ a ∈ l, ∀ b ∈ l, R a b → S a b) → l.Pairwise R → l.Pairwise S := by
  intro l
  induction l with
  | nil => exact fun _ _ => List.Pairwise.nil
  | cons x xs ih =>
    intro h hp
    rcases List.pairwise_cons.mp hp with ⟨hx, hxs⟩
    refine List.pairwise_cons.mpr ⟨fun b hb => h x (by simp) b (by simp [hb]) (hx b hb), ?_⟩
    exact ih (fun a ha b hb => h a (by simp [ha]) b (by simp [hb])) hxs

/-- dropWhile at the first occurrence of fid yields fid as its head. -/
theorem dropWhile_ne_cons : ∀ {l : List Nat} {fid : Nat}, fid ∈ l →
    l.dropWhile (fun x => x != fid) = fid :: (l.dropWhile (fun x => x != fid)).tail := by
  intro l
  induction l with
  | nil => intro fid h; simp at h
  | cons a as ih =>
    intro fid h
    by_cases ha : a = fid
    · subst ha
      simp [List.dropWhile_cons]
    · have hne : (a != fid) = true := by simp [bne_iff_ne]; exact ha
      have hmem : fid ∈ as := by
        rcases List.mem_cons.mp h with h1 | h1
        · exact absurd h1.symm ha
        · exact h1
      simp only [List.dropWhile_cons, hne, if_pos]
      exact ih hmem

/-- Splitting a list at the first occurrence of a member. -/
theorem split_at_mem {l : List Nat} {fid : Nat} (h : fid ∈ l) :
    l = l.takeWhile (fun x => x != fid) ++ fid :: (l.dropWhile (fun x => x != fid)).tail := by
  have h1 := List.takeWhile_append_dropWhile (fun x => x != fid) l
  rw [dropWhile_ne_cons h] at h1
  exact h1.symm

/-- Elements of the takeWhile part differ from fid. -/
theorem mem_takeWhile_ne {l : List Nat} {fid x : Nat}
    (h : x ∈ l.takeWhile (fun x => x != fid)) : x ≠ fid := by
  have := List.mem_takeWhile_imp h
  simpa [bne_iff_ne] using this

/-- find? succeeds when some member satisfies the predicate. -/
theorem find?_isSome_of_exists {p : Nat → Bool} :
    ∀ {l : List Nat}, (∃ x ∈ l, p x = true) → ∃ v, l.find? p = some v := by
  intro l
  induction l with
  | nil => rintro ⟨x, hx, _⟩; simp at hx
  | cons a as ih =>
    rintro ⟨x, hx, hpx⟩
    by_cases hpa : p a = true
    · exact ⟨a, by simp [List.find?_cons, hpa]⟩
    · rcases List.mem_cons.mp hx with rfl | hxs
      · exact absurd hpx hpa
      · rcases ih ⟨x, hxs, hpx⟩ with ⟨v, hv⟩
        refine ⟨v, ?_⟩
        rw [List.find?_cons]
        simp only [hpa]
        simpa using hv

/-- In a Pairwise-ordered list the first hit of find? is related to every
other member satisfying the predicate. -/
theorem find?_first_rel {p : Nat → Bool} {R : Nat → Nat → Prop} {v : Nat} :
    ∀ {l : List Nat}, l.Pairwise R → l.find? p = some v →
      ∀ g ∈ l, p g = true → g ≠ v → R v g := by
  intro l
  induction l with
  | nil => intro _ hf; simp at hf
  | cons a as ih =>
    intro hp hf g hg hpg hgv
    rcases List.pairwise_cons.mp hp with ⟨ha, has⟩
    by_cases hpa : p a = true
    · have hva : a = v := by
        rw [List.find?_cons] at hf
        simp only [hpa] at hf
        simpa using hf
      subst hva
      rcases List.mem_cons.mp hg with rfl | hgs
      · exact absurd rfl hgv
      · exact ha g hgs
    · have hf' : as.find? p = some v := by
        rw [List.find?_cons] at hf
        simpa [hpa] using hf
      rcases List.mem_cons.mp hg with rfl | hgs
      · exact absurd hpg hpa
      · exact ih has hf' g hgs hpg hgv

/-! ## Sort key lemmas -/

/-- Transitivity of the key order. -/
theorem keyLt_trans {a b c : Nat × Nat} (h1 : keyLt a b) (h2 : keyLt b c) : keyLt a c := by
  unfold keyLt at *
  omega

/-- Totality of the key order on keys with distinct second components. -/
theorem keyLt_or {a b : Nat × Nat} (h : a.2 ≠ b.2) : keyLt a b ∨ keyLt b a := by
  unfold keyLt
  omega

/-- The second key component is one of the node's timestamps. -/
theorem nodeKey_snd_mem {n : LRUKNode} (h : n.history ≠ []) :
    (nodeKey n).2 ∈ n.history := by
  unfold nodeKey
  by_cases h1 : n.history.length < n.k
  · simpa [h1] using getLastD_mem n.history 0 h
  · simpa [h1] using headD_mem h

/-- On non-empty histories with positive entries, the C++ node ordering
LRUKNode.lt coincides with the key order. -/
theorem lt_iff_keyLt {a c : LRUKNode}
    (hc : c.history ≠ [])
    (hcpos : ∀ t ∈ c.history, 1 ≤ t) :
    (a.lt c = true) ↔ keyLt (nodeKey a) (nodeKey c) := by
  unfold LRUKNode.lt nodeKey keyLt LRUKNode.GetBackwardKDistance
  by_cases h1 : a.history.length < a.k <;> by_cases h2 : c.history.length < c.k
  · simp [h1, h2]
  · have hpos : 1 ≤ c.history.headD 0 := hcpos _ (headD_mem hc)
    simp only [List.headD_eq_head?_getD] at hpos
    simp [h1, h2]
    omega
  · simp [h1, h2]
  · simp [h1, h2]

/-- The spec's victim order is the key order. -/
theorem specPrecedes_iff_keyLt (a c : LRUKNode) :
    SpecVictimPrecedes a c ↔ keyLt (nodeKey a) (nodeKey c) := by
  unfold SpecVictimPrecedes nodeKey keyLt
  by_cases h1 : a.history.length < a.k <;> by_cases h2 : c.history.length < c.k <;>
    simp [h1, h2]

/-! ## Sort key shapes -/

/-- Key of a node with a short history (infinite distance bucket). -/
theorem nodeKey_short {n : LRUKNode} (h : n.history.length < n.k) :
    nodeKey n = (0, n.history.getLastD 0) := by
  unfold nodeKey
  rw [if_pos h]

/-- Key of a node with a full history (finite distance bucket). -/
theorem nodeKey_full {n : LRUKNode} (h : ¬ n.history.length < n.k) :
    nodeKey n = (1, n.history.headD 0) := by
  unfold nodeKey
  rw [if_neg h]

/-- Key order within the infinite bucket. -/
theorem keyLt_zero_zero {a b : Nat} : keyLt (0, a) (0, b) ↔ a < b := by
  unfold keyLt
  simp

/-- Key order within the finite bucket. -/
theorem keyLt_one_one {a b : Nat} : keyLt (1, a) (1, b) ↔ a < b := by
  unfold keyLt
  simp

/-- The infinite bucket sorts before the finite bucket. -/
theorem keyLt_zero_one {a b : Nat} : keyLt (0, a) (1, b) := by
  unfold keyLt
  simp

/-! ## Effect of LRUKNode.RecordAccess on histories and keys -/

/-- RecordAccess keeps the evictable flag, the k field and the fid field. -/
theorem recordAccess_fields (n : LRUKNode) (ts : Nat) :
    (n.RecordAccess ts).is_evictable = n.is_evictable ∧
    (n.RecordAccess ts).k = n.k ∧ (n.RecordAccess ts).fid = n.fid := by
  unfold LRUKNode.RecordAccess
  exact ⟨rfl, rfl, rfl⟩

/-- The recorded history is never empty. -/
theorem recordAccess_ne_nil (n : LRUKNode) (ts : Nat) :
    (n.RecordAccess ts).history ≠ [] := by
  unfold LRUKNode.RecordAccess
  simp

/-- Shape of the recorded history on a full history. -/
theorem recordAccess_history_full {n : LRUKNode} (h : n.history.length = n.k) (ts : Nat) :
    (n.RecordAccess ts).history = n.history.tail ++ [ts] := by
  unfold LRUKNode.RecordAccess
  simp [h]

/-- Shape of the recorded history on a short history. -/
theorem recordAccess_history_short {n : LRUKNode} (h : ¬ n.history.length = n.k) (ts : Nat) :
    (n.RecordAccess ts).history = n.history ++ [ts] := by
  unfold LRUKNode.RecordAccess
  simp [h]

/-- Well-formedness is preserved by recording a fresh timestamp, with the
bound advanced past it. -/
theorem histOK_recordAccess {kk B : Nat} {n : LRUKNode} {ts : Nat}
    (h : histOK kk B n) (hk : 1 ≤ kk) (hB : 1 ≤ B) (hts : B ≤ ts) :
    histOK kk (ts + 1) (n.RecordAccess ts) := by
  obtain ⟨hkeq, hlen1, hlenk, hchain, hent⟩ := h
  have hki : (n.RecordAccess ts).k = n.k := (recordAccess_fields n ts).2.1
  by_cases hcase : n.history.length = n.k
  · have hhist := recordAccess_history_full hcase ts
    refine ⟨by rw [hki, hkeq], ?_, ?_, ?_, ?_⟩
    · rw [hhist, List.length_append]
      simp
    · rw [hhist, List.length_append, List.length_tail]
      simp
      omega
    · rw [hhist, List.chain'_append]
      refine ⟨hchain.tail, List.chain'_singleton ts, ?_⟩
      intro x hx y hy
      simp at hy
      subst hy
      have hxm : x ∈ n.history.tail := List.mem_of_mem_getLast? hx
      have := hent x (List.mem_of_mem_tail hxm)
      omega
    · intro t htm
      rw [hhist] at htm
      rcases List.mem_append.mp htm with hin | hin
      · have := hent t (List.mem_of_mem_tail hin)
        omega
      · simp at hin
        omega
  · have hhist := recordAccess_history_short hcase ts
    refine ⟨by rw [hki, hkeq], ?_, ?_, ?_, ?_⟩
    · rw [hhist, List.length_append]
      simp
    · rw [hhist, List.length_append]
      simp
      omega
    · rw [hhist, List.chain'_append]
      refine ⟨hchain, List.chain'_singleton ts, ?_⟩
      intro x hx y hy
      simp at hy
      subst hy
      have hxm : x ∈ n.history := List.mem_of_mem_getLast? hx
      have := hent x hxm
      omega
    · intro t htm
      rw [hhist] at htm
      rcases List.mem_append.mp htm with hin | hin
      · have := hent t hin
        omega
      · simp at hin
        omega

/-- Recording a timestamp past the bound strictly raises the sort key. -/
theorem nodeKey_lt_recordAccess {kk B : Nat} {n : LRUKNode} {ts : Nat}
    (h : histOK kk B n) (hk : 1 ≤ kk) (hts : B ≤ ts) :
    keyLt (nodeKey n) (nodeKey (n.RecordAccess ts)) := by
  obtain ⟨hkeq, hlen1, hlenk, hchain, hent⟩ := h
  have hne : n.history ≠ [] := by
    cases hh : n.history
    · rw [hh] at hlen1; simp at hlen1
    · simp
  have hki : (n.RecordAccess ts).k = n.k := (recordAccess_fields n ts).2.1
  by_cases hcase : n.history.length = n.k
  · -- full history: pop the front, push the timestamp; stays in bucket 1
    have hhist := recordAccess_history_full hcase ts
    have hnotlt : ¬ n.history.length < n.k := by omega
    have hlen' : (n.RecordAccess ts).history.length = n.k := by
      rw [hhist, List.length_append, List.length_tail]
      simp
      omega
    have hnotlt' : ¬ (n.RecordAccess ts).history.length < (n.RecordAccess ts).k := by
      rw [hki, hlen']
      omega
    rw [nodeKey_full hnotlt, nodeKey_full hnotlt', keyLt_one_one, hhist]
    -- head of tail ++ [ts] is strictly above the old head
    cases hh : n.history with
    | nil => exact absurd hh hne
    | cons a rest =>
      cases hr : rest with
      | nil =>
        -- the history was the single entry a, so the new head is ts itself
        simp
        have := hent a (by rw [hh]; simp)
        omega
      | cons r rest' =>
        simp
        have har : a < r := by
          have hch := hchain
          rw [hh, hr] at hch
          exact (List.chain'_cons.mp hch).1
        omega
  · -- short history: append; either stays in bucket 0 with a larger back
    -- entry, or moves from bucket 0 to bucket 1
    have hlt : n.history.length < n.k := by omega
    have hhist := recordAccess_history_short hcase ts
    rw [nodeKey_short hlt]
    by_cases hcase2 : (n.RecordAccess ts).history.length < (n.RecordAccess ts).k
    · rw [nodeKey_short hcase2, hhist, getLastD_append_singleton, keyLt_zero_zero]
      have := hent _ (getLastD_mem n.history 0 hne)
      omega
    · rw [nodeKey_full hcase2]
      exact keyLt_zero_one

/-! ## The insertion loop -/

/-- Inserting fid produces a permutation of consing it. -/
theorem insertBeforeLt_perm (s : LRUKReplacer) (n : LRUKNode) (fid : Nat) :
    ∀ l : List Nat, (insertBeforeLt s n fid l).Perm (fid :: l)
  | [] => by simp [insertBeforeLt]
  | x :: xs => by
    rw [insertBeforeLt]
    by_cases h : n.lt (s.nodeOf x) = true
    · rw [if_pos h]
    · rw [if_neg h]
      exact ((insertBeforeLt_perm s n fid xs).cons x).trans (List.Perm.swap fid x xs)

/-- Membership after insertion. -/
theorem insertBeforeLt_mem {s : LRUKReplacer} {n : LRUKNode} {fid : Nat}
    {l : List Nat} {y : Nat} :
    y ∈ insertBeforeLt s n fid l ↔ y = fid ∨ y ∈ l := by
  have := (insertBeforeLt_perm s n fid l).mem_iff (a := y)
  simpa using this

/-- Sortedness of the inserted list, relative to the node map of the updated
state: all compared elements differ from fid, keep their node, compare by
the key order, and have keys distinct from the new node's key. -/
theorem insertBeforeLt_pairwise (s s' : LRUKReplacer) (n : LRUKNode) (fid : Nat) :
    ∀ l : List Nat,
      (∀ x ∈ l, s'.nodeOf x = s.nodeOf x) →
      s'.nodeOf fid = n →
      (∀ x ∈ l, (n.lt (s.nodeOf x) = true ↔ keyLt (nodeKey n) (nodeKey (s.nodeOf x)))) →
      (∀ x ∈ l, keyLt (nodeKey (s.nodeOf x)) (nodeKey n) ∨
        keyLt (nodeKey n) (nodeKey (s.nodeOf x))) →
      l.Pairwise (fun a c => keyLt (nodeKey (s.nodeOf a)) (nodeKey (s.nodeOf c))) →
      (insertBeforeLt s n fid l).Pairwise
        (fun a c => keyLt (nodeKey (s'.nodeOf a)) (nodeKey (s'.nodeOf c)))
  | [] => by
    intro _ _ _ _ _
    simp [insertBeforeLt]
  | x :: xs => by
    intro hagree hfid hcmp htot hp
    rcases List.pairwise_cons.mp hp with ⟨hx, hxs⟩
    have hax : s'.nodeOf x = s.nodeOf x := hagree x (by simp)
    rw [insertBeforeLt]
    by_cases h : n.lt (s.nodeOf x) = true
    · rw [if_pos h]
      have hkx : keyLt (nodeKey n) (nodeKey (s.nodeOf x)) := (hcmp x (by simp)).mp h
      refine List.pairwise_cons.mpr ⟨?_, ?_⟩
      · intro y hy
        rw [hfid]
        rcases List.mem_cons.mp hy with rfl | hys
        · rw [hax]; exact hkx
        · rw [hagree y (by simp [hys])]
          exact keyLt_trans hkx (hx y hys)
      · exact pairwise_imp_mem
          (fun a ha b hb hr => by
            rw [hagree a ha, hagree b hb]; exact hr) hp
    · rw [if_neg h]
      have hxn : keyLt (nodeKey (s.nodeOf x)) (nodeKey n) := by
        rcases htot x (by simp) with h1 | h1
        · exact h1
        · exact absurd ((hcmp x (by simp)).mpr h1) h
      refine List.pairwise_cons.mpr ⟨?_, ?_⟩
      · intro y hy
        rcases insertBeforeLt_mem.mp hy with rfl | hys
        · rw [hax, hfid]
          exact hxn
        · rw [hax, hagree y (by simp [hys])]
          exact hx y hys
      · exact insertBeforeLt_pairwise s s' n fid xs
          (fun a ha => hagree a (by simp [ha]))
          hfid
          (fun a ha => hcmp a (by simp [ha]))
          (fun a ha => htot a (by simp [ha]))
          hxs

/-! ## Characterizations of the replacer operations -/

/-- RecordAccess rejects an out-of-range frame id. -/
theorem recordAccess_err {s : LRUKReplacer} {fid ts : Nat}
    (h : s.replacer_size ≤ fid) : s.RecordAccess fid ts = .error .outOfRange := by
  unfold LRUKReplacer.RecordAccess
  rw [if_pos h]

/-- RecordAccess on a frame seen for the first time. -/
theorem recordAccess_fresh {s : LRUKReplacer} {fid ts : Nat}
    (h1 : ¬ s.replacer_size ≤ fid) (h2 : s.node_store fid = none) :
    s.RecordAccess fid ts =
      .ok { s with
        node_store := fun x =>
          if x = fid then some ((LRUKNode.mk [] s.k fid false).RecordAccess ts)
          else s.node_store x,
        lru_list := insertBeforeLt s ((LRUKNode.mk [] s.k fid false).RecordAccess ts)
          fid s.lru_list } := by
  unfold LRUKReplacer.RecordAccess
  rw [if_neg h1, h2]

/-- RecordAccess on an already tracked frame. -/
theorem recordAccess_existing {s : LRUKReplacer} {fid ts : Nat} {n0 : LRUKNode}
    (h1 : ¬ s.replacer_size ≤ fid) (h2 : s.node_store fid = some n0) :
    s.RecordAccess fid ts =
      .ok { s with
        node_store := fun x =>
          if x = fid then some (n0.RecordAccess ts) else s.node_store x,
        lru_list := s.lru_list.takeWhile (fun x => x != fid) ++
          insertBeforeLt s (n0.RecordAccess ts) fid
            ((s.lru_list.dropWhile (fun x => x != fid)).tail) } := by
  unfold LRUKReplacer.RecordAccess
  rw [if_neg h1, h2]

/-- SetEvictable on an unknown frame is a no-op. -/
theorem setEvictable_unknown {s : LRUKReplacer} {fid : Nat} {b : Bool}
    (h : s.node_store fid = none) : s.SetEvictable fid b = s := by
  unfold LRUKReplacer.SetEvictable
  rw [h]

/-- SetEvictable without a real transition is a no-op. -/
theorem setEvictable_same {s : LRUKReplacer} {fid : Nat} {b : Bool} {n : LRUKNode}
    (h : s.node_store fid = some n) (he : n.is_evictable = b) :
    s.SetEvictable fid b = s := by
  unfold LRUKReplacer.SetEvictable
  rw [h]
  simp [he]

/-- SetEvictable on a real transition. -/
theorem setEvictable_flip {s : LRUKReplacer} {fid : Nat} {b : Bool} {n : LRUKNode}
    (h : s.node_store fid = some n) (he : ¬ n.is_evictable = b) :
    s.SetEvictable fid b =
      { s with
        node_store := fun x =>
          if x = fid then some (n.SetEvictable b) else s.node_store x,
        curr_size := if b then s.curr_size + 1 else s.curr_size - 1 } := by
  unfold LRUKReplacer.SetEvictable
  rw [h]
  simp [he]

/-- Remove on an unknown frame returns the state unchanged. -/
theorem remove_unknown {s : LRUKReplacer} {fid : Nat}
    (h : s.node_store fid = none) : s.Remove fid = .ok s := by
  unfold LRUKReplacer.Remove
  rw [h]

/-- Remove on a tracked non-evictable frame throws. -/
theorem remove_pinned {s : LRUKReplacer} {fid : Nat} {n : LRUKNode}
    (h : s.node_store fid = some n) (he : n.is_evictable = false) :
    s.Remove fid = .error .invalidState := by
  unfold LRUKReplacer.Remove
  rw [h]
  simp [he]

/-- Remove on a tracked evictable frame erases it. -/
theorem remove_ok {s : LRUKReplacer} {fid : Nat} {n : LRUKNode}
    (h : s.node_store fid = some n) (he : n.is_evictable = true) :
    s.Remove fid =
      .ok { s with
        lru_list := s.lru_list.erase fid,
        node_store := fun x => if x = fid then none else s.node_store x,
        curr_size := s.curr_size - 1 } := by
  unfold LRUKReplacer.Remove
  rw [h]
  simp [he]

/-- Evict on an empty replacer. -/
theorem evict_empty {s : LRUKReplacer} (h : s.curr_size = 0) :
    s.Evict = (none, s) := by
  unfold LRUKReplacer.Evict
  rw [if_pos h]

/-- Evict when the scan finds an evictable frame. -/
theorem evict_found {s : LRUKReplacer} {v : Nat} (h : ¬ s.curr_size = 0)
    (hf : s.lru_list.find? (fun f => (s.nodeOf f).is_evictable) = some v) :
    s.Evict = (some v,
      { s with
        lru_list := s.lru_list.erase v,
        node_store := fun x => if x = v then none else s.node_store x,
        curr_size := s.curr_size - 1 }) := by
  unfold LRUKReplacer.Evict
  rw [if_neg h, hf]

/-- Evict when the scan finds nothing. -/
theorem evict_notfound {s : LRUKReplacer} (h : ¬ s.curr_size = 0)
    (hf : s.lru_list.find? (fun f => (s.nodeOf f).is_evictable) = none) :
    s.Evict = (none, s) := by
  unfold LRUKReplacer.Evict
  rw [if_neg h, hf]

/-- The step of a rejected RecordAccess leaves the state unchanged. -/
theorem step_record_err {s : LRUKReplacer} {fid ts : Nat}
    (h : s.replacer_size ≤ fid) : s.step (.record fid ts) = s := by
  simp only [LRUKReplacer.step]
  rw [recordAccess_err h]

/-- The step of an accepted RecordAccess is its ok-state. -/
theorem step_record_ok {s s' : LRUKReplacer} {fid ts : Nat}
    (h : s.RecordAccess fid ts = .ok s') : s.step (.record fid ts) = s' := by
  simp only [LRUKReplacer.step]
  rw [h]

/-- The step of SetEvictable. -/
theorem step_setEv {s : LRUKReplacer} {fid : Nat} {b : Bool} :
    s.step (.setEv fid b) = s.SetEvictable fid b := rfl

/-- The step of Evict. -/
theorem step_evict {s : LRUKReplacer} : s.step .evict = (s.Evict).2 := rfl

/-- The step of an accepted Remove. -/
theorem step_remove_ok {s s' : LRUKReplacer} {fid : Nat}
    (h : s.Remove fid = .ok s') : s.step (.remove fid) = s' := by
  simp only [LRUKReplacer.step]
  rw [h]

/-- The step of a rejected Remove leaves the state unchanged. -/
theorem step_remove_err {s : LRUKReplacer} {fid : Nat} {e : ReplacerError}
    (h : s.Remove fid = .error e) : s.step (.remove fid) = s := by
  simp only [LRUKReplacer.step]
  rw [h]

/-! ## Node map lookups -/

/-- nodeOf on a present entry. -/
theorem nodeOf_store_some {s : LRUKReplacer} {fid : Nat} {n : LRUKNode}
    (h : s.node_store fid = some n) : s.nodeOf fid = n := by
  unfold LRUKReplacer.nodeOf
  rw [h]
  rfl

/-- nodeOf agrees between states whose stores agree at the point. -/
theorem nodeOf_congr {s s' : LRUKReplacer} {x : Nat}
    (h : s'.node_store x = s.node_store x) : s'.nodeOf x = s.nodeOf x := by
  unfold LRUKReplacer.nodeOf
  rw [h]

/-- Length of a filter through the cons-erase permutation at a member. -/
theorem length_filter_cons_erase {l : List Nat} {fid : Nat} (hm : fid ∈ l)
    (p : Nat → Bool) :
    (l.filter p).length =
      (if p fid then 1 else 0) + ((l.erase fid).filter p).length := by
  have hp := List.perm_cons_erase hm
  rw [(hp.filter p).length_eq, List.filter_cons]
  by_cases hpf : p fid = true
  · simp [hpf]
    omega
  · simp [hpf]

/-! ## Preservation of the structural invariant -/

/-- The step of any operation keeps the k and capacity fields. -/
theorem step_fields (s : LRUKReplacer) (op : ROp) :
    (s.step op).k = s.k ∧ (s.step op).replacer_size = s.replacer_size := by
  cases op with
  | record fid ts =>
    by_cases h1 : s.replacer_size ≤ fid
    · rw [step_record_err h1]
      exact ⟨rfl, rfl⟩
    · cases h2 : s.node_store fid with
      | none =>
        rw [step_record_ok (recordAccess_fresh h1 h2)]
        exact ⟨rfl, rfl⟩
      | some n0 =>
        rw [step_record_ok (recordAccess_existing h1 h2)]
        exact ⟨rfl, rfl⟩
  | setEv fid b =>
    rw [step_setEv]
    cases h2 : s.node_store fid with
    | none =>
      rw [setEvictable_unknown h2]
      exact ⟨rfl, rfl⟩
    | some n =>
      by_cases he : n.is_evictable = b
      · rw [setEvictable_same h2 he]
        exact ⟨rfl, rfl⟩
      · rw [setEvictable_flip h2 he]
        exact ⟨rfl, rfl⟩
  | evict =>
    rw [step_evict]
    by_cases h1 : s.curr_size = 0
    · rw [evict_empty h1]
      exact ⟨rfl, rfl⟩
    · cases hf : s.lru_list.find? (fun f => (s.nodeOf f).is_evictable) with
      | none =>
        rw [evict_notfound h1 hf]
        exact ⟨rfl, rfl⟩
      | some v =>
        rw [evict_found h1 hf]
        exact ⟨rfl, rfl⟩
  | remove fid =>
    cases h2 : s.node_store fid with
    | none =>
      rw [step_remove_ok (remove_unknown h2)]
      exact ⟨rfl, rfl⟩
    | some n =>
      by_cases he : n.is_evictable = true
      · rw [step_remove_ok (remove_ok h2 he)]
        exact ⟨rfl, rfl⟩
      · rw [step_remove_err (remove_pinned h2 (by simpa using he))]
        exact ⟨rfl, rfl⟩

/-- Length of a filter is unchanged when consing an element failing the
predicate. -/
theorem filter_length_cons_false {l : List Nat} {p : Nat → Bool} {a : Nat}
    (h : p a = false) : ((a :: l).filter p).length = (l.filter p).length := by
  rw [List.filter_cons]
  simp [h]

/-- RecordAccess preserves the structural invariant. -/
theorem invB_record {s : LRUKReplacer} {fid ts : Nat} (h : InvB s) :
    InvB (s.step (.record fid ts)) := by
  by_cases h1 : s.replacer_size ≤ fid
  · rw [step_record_err h1]
    exact h
  · cases h2 : s.node_store fid with
    | none =>
      rw [step_record_ok (recordAccess_fresh h1 h2)]
      have hfnotin : fid ∉ s.lru_list := by
        intro hm
        have := (h.mem_iff fid).mp hm
        rw [h2] at this
        simp at this
      have hperm := insertBeforeLt_perm s
        ((LRUKNode.mk [] s.k fid false).RecordAccess ts) fid s.lru_list
      refine ⟨?_, ?_, ?_, ?_⟩
      · exact hperm.nodup_iff.mpr (List.nodup_cons.mpr ⟨hfnotin, h.nodup⟩)
      · intro f
        show f ∈ insertBeforeLt s _ fid s.lru_list ↔
          (if f = fid then some _ else s.node_store f).isSome = true
        rw [insertBeforeLt_mem]
        by_cases hf : f = fid
        · simp [hf]
        · simp only [hf, if_neg, ite_false]
          simpa [hf] using h.mem_iff f
      · intro f hf
        show f < s.replacer_size
        rcases insertBeforeLt_mem.mp hf with rfl | hmem
        · omega
        · exact h.fid_lt f hmem
      · show s.curr_size = _
        simp only [LRUKReplacer.nodeOf]
        have hsz := h.size_eq
        simp only [LRUKReplacer.nodeOf] at hsz
        have hcong : ∀ x ∈ s.lru_list,
            ((s.node_store x).getD
              { history := [], k := 0, fid := 0, is_evictable := false }).is_evictable
            = (((fun y => if y = fid then
                  some ((LRUKNode.mk [] s.k fid false).RecordAccess ts)
                  else s.node_store y) x).getD
              { history := [], k := 0, fid := 0, is_evictable := false }).is_evictable := by
          intro x hx
          have hxne : x ≠ fid := fun hxf => hfnotin (hxf ▸ hx)
          simp [hxne]
        calc s.curr_size
            = (s.lru_list.filter fun f => ((s.node_store f).getD
                { history := [], k := 0, fid := 0, is_evictable := false }).is_evictable).length := hsz
          _ = (s.lru_list.filter fun f => (((fun y => if y = fid then
                  some ((LRUKNode.mk [] s.k fid false).RecordAccess ts)
                  else s.node_store y) f).getD
                { history := [], k := 0, fid := 0, is_evictable := false }).is_evictable).length := by
              rw [List.filter_congr hcong]
          _ = ((fid :: s.lru_list).filter fun f => (((fun y => if y = fid then
                  some ((LRUKNode.mk [] s.k fid false).RecordAccess ts)
                  else s.node_store y) f).getD
                { history := [], k := 0, fid := 0, is_evictable := false }).is_evictable).length := by
              rw [filter_length_cons_false]
              simp [LRUKNode.RecordAccess]
          _ = _ := ((hperm.filter _).length_eq).symm
    | some n0 =>
      rw [step_record_ok (recordAccess_existing h1 h2)]
      have hmem : fid ∈ s.lru_list := (h.mem_iff fid).mpr (by rw [h2]; rfl)
      have hsplit := split_at_mem hmem
      have hpermL : (s.lru_list.takeWhile (fun x => x != fid) ++
          insertBeforeLt s (n0.RecordAccess ts) fid
            ((s.lru_list.dropWhile (fun x => x != fid)).tail)).Perm s.lru_list := by
        conv_rhs => rw [hsplit]
        exact List.Perm.append_left _ (insertBeforeLt_perm s (n0.RecordAccess ts) fid _)
      refine ⟨?_, ?_, ?_, ?_⟩
      · exact hpermL.nodup_iff.mpr h.nodup
      · intro f
        show f ∈ _ ↔ (if f = fid then some _ else s.node_store f).isSome = true
        rw [hpermL.mem_iff]
        by_cases hf : f = fid
        · subst hf
          simp [hmem]
        · simp only [hf, ite_false]
          exact h.mem_iff f
      · intro f hf
        show f < s.replacer_size
        exact h.fid_lt f (hpermL.mem_iff.mp hf)
      · show s.curr_size = _
        simp only [LRUKReplacer.nodeOf]
        have hsz := h.size_eq
        simp only [LRUKReplacer.nodeOf] at hsz
        have hcong : ∀ x ∈ s.lru_list,
            ((s.node_store x).getD
              { history := [], k := 0, fid := 0, is_evictable := false }).is_evictable
            = (((fun y => if y = fid then some (n0.RecordAccess ts)
                  else s.node_store y) x).getD
              { history := [], k := 0, fid := 0, is_evictable := false }).is_evictable := by
          intro x hx
          by_cases hxf : x = fid
          · subst hxf
            simp [h2, LRUKNode.RecordAccess]
          · simp [hxf]
        calc s.curr_size
            = (s.lru_list.filter fun f => ((s.node_store f).getD
                { history := [], k := 0, fid := 0, is_evictable := false }).is_evictable).length := hsz
          _ = (s.lru_list.filter fun f => (((fun y => if y = fid then
                  some (n0.RecordAccess ts)
                  else s.node_store y) f).getD
                { history := [], k := 0, fid := 0, is_evictable := false }).is_evictable).length := by
              rw [List.filter_congr hcong]
          _ = _ := ((hpermL.filter _).length_eq).symm

/-- SetEvictable preserves the structural invariant. -/
theorem invB_setEv {s : LRUKReplacer} {fid : Nat} {b : Bool} (h : InvB s) :
    InvB (s.step (.setEv fid b)) := by
  rw [step_setEv]
  cases h2 : s.node_store fid with
  | none =>
    rw [setEvictable_unknown h2]
    exact h
  | some n =>
    by_cases he : n.is_evictable = b
    · rw [setEvictable_same h2 he]
      exact h
    · rw [setEvictable_flip h2 he]
      have hmem : fid ∈ s.lru_list := (h.mem_iff fid).mpr (by rw [h2]; rfl)
      refine ⟨h.nodup, ?_, h.fid_lt, ?_⟩
      · intro f
        show f ∈ s.lru_list ↔ (if f = fid then some _ else s.node_store f).isSome = true
        by_cases hf : f = fid
        · subst hf
          simp [hmem]
        · simp only [hf, ite_false]
          exact h.mem_iff f
      · show (if b then s.curr_size + 1 else s.curr_size - 1) = _
        simp only [LRUKReplacer.nodeOf]
        have hsz := h.size_eq
        simp only [LRUKReplacer.nodeOf] at hsz
        rw [length_filter_cons_erase hmem] at hsz
        rw [length_filter_cons_erase hmem]
        have hcong : List.filter (fun f => (((fun y => if y = fid then
                some (n.SetEvictable b) else s.node_store y) f).getD
              { history := [], k := 0, fid := 0, is_evictable := false }).is_evictable)
            (s.lru_list.erase fid)
            = List.filter (fun f => ((s.node_store f).getD
              { history := [], k := 0, fid := 0, is_evictable := false }).is_evictable)
              (s.lru_list.erase fid) := by
          refine List.filter_congr ?_
          intro x hx
          have hxne : x ≠ fid := ((h.nodup.mem_erase_iff).mp hx).1
          simp [hxne]
        rw [hcong]
        have hnewfid : (((fun y => if y = fid then some (n.SetEvictable b)
            else s.node_store y) fid).getD
              { history := [], k := 0, fid := 0, is_evictable := false }).is_evictable = b := by
          simp [LRUKNode.SetEvictable]
        have holdfid : ((s.node_store fid).getD
              { history := [], k := 0, fid := 0, is_evictable := false }).is_evictable
            = n.is_evictable := by
          rw [h2]
          rfl
        rw [hnewfid]
        rw [holdfid] at hsz
        cases b with
        | true =>
          have hnev : n.is_evictable = false := by simpa using he
          rw [hnev] at hsz
          simp at hsz ⊢
          omega
        | false =>
          have hnev : n.is_evictable = true := by simpa using he
          rw [hnev] at hsz
          simp at hsz ⊢
          omega

/-- Evict preserves the structural invariant. -/
theorem invB_evict {s : LRUKReplacer} (h : InvB s) : InvB (s.step .evict) := by
  rw [step_evict]
  by_cases h1 : s.curr_size = 0
  · rw [evict_empty h1]
    exact h
  · cases hf : s.lru_list.find? (fun f => (s.nodeOf f).is_evictable) with
    | none =>
      rw [evict_notfound h1 hf]
      exact h
    | some v =>
      rw [evict_found h1 hf]
      have hvmem : v ∈ s.lru_list := List.mem_of_find?_eq_some hf
      have hvev := List.find?_some hf
      refine ⟨?_, ?_, ?_, ?_⟩
      · exact (List.erase_sublist v s.lru_list).nodup h.nodup
      · intro f
        show f ∈ s.lru_list.erase v ↔ (if f = v then none else s.node_store f).isSome = true
        rw [h.nodup.mem_erase_iff]
        by_cases hfv : f = v
        · simp [hfv]
        · simp only [hfv, ite_false]
          simpa [hfv] using h.mem_iff f
      · intro f hf2
        show f < s.replacer_size
        exact h.fid_lt f (List.mem_of_mem_erase hf2)
      · show s.curr_size - 1 = _
        simp only [LRUKReplacer.nodeOf]
        have hsz := h.size_eq
        simp only [LRUKReplacer.nodeOf] at hsz hvev
        rw [length_filter_cons_erase hvmem, hvev] at hsz
        have hcong : List.filter (fun f => (((fun y => if y = v then none
                else s.node_store y) f).getD
              { history := [], k := 0, fid := 0, is_evictable := false }).is_evictable)
            (s.lru_list.erase v)
            = List.filter (fun f => ((s.node_store f).getD
              { history := [], k := 0, fid := 0, is_evictable := false }).is_evictable)
              (s.lru_list.erase v) := by
          refine List.filter_congr ?_
          intro x hx
          have hxne : x ≠ v := ((h.nodup.mem_erase_iff).mp hx).1
          simp [hxne]
        rw [hcong]
        simp at hsz
        omega

/-- Remove preserves the structural invariant. -/
theorem invB_remove {s : LRUKReplacer} {fid : Nat} (h : InvB s) :
    InvB (s.step (.remove fid)) := by
  cases h2 : s.node_store fid with
  | none =>
    rw [step_remove_ok (remove_unknown h2)]
    exact h
  | some n =>
    by_cases he : n.is_evictable = true
    · rw [step_remove_ok (remove_ok h2 he)]
      have hmem : fid ∈ s.lru_list := (h.mem_iff fid).mpr (by rw [h2]; rfl)
      refine ⟨?_, ?_, ?_, ?_⟩
      · exact (List.erase_sublist fid s.lru_list).nodup h.nodup
      · intro f
        show f ∈ s.lru_list.erase fid ↔
          (if f = fid then none else s.node_store f).isSome = true
        rw [h.nodup.mem_erase_iff]
        by_cases hff : f = fid
        · simp [hff]
        · simp only [hff, ite_false]
          simpa [hff] using h.mem_iff f
      · intro f hf2
        show f < s.replacer_size
        exact h.fid_lt f (List.mem_of_mem_erase hf2)
      · show s.curr_size - 1 = _
        simp only [LRUKReplacer.nodeOf]
        have hsz := h.size_eq
        simp only [LRUKReplacer.nodeOf] at hsz
        rw [length_filter_cons_erase hmem] at hsz
        have hfidtrue : ((s.node_store fid).getD
            { history := [], k := 0, fid := 0, is_evictable := false }).is_evictable = true := by
          rw [h2]
          exact he
        rw [hfidtrue] at hsz
        have hcong : List.filter (fun f => (((fun y => if y = fid then none
                else s.node_store y) f).getD
              { history := [], k := 0, fid := 0, is_evictable := false }).is_evictable)
            (s.lru_list.erase fid)
            = List.filter (fun f => ((s.node_store f).getD
              { history := [], k := 0, fid := 0, is_evictable := false }).is_evictable)
              (s.lru_list.erase fid) := by
          refine List.filter_congr ?_
          intro x hx
          have hxne : x ≠ fid := ((h.nodup.mem_erase_iff).mp hx).1
          simp [hxne]
        rw [hcong]
        simp at hsz
        omega
    · rw [step_remove_err (remove_pinned h2 (by simpa using he))]
      exact h

/-- Any step preserves the structural invariant. -/
theorem invB_step {s : LRUKReplacer} (op : ROp) (h : InvB s) : InvB (s.step op) := by
  cases op with
  | record fid ts => exact invB_record h
  | setEv fid b => exact invB_setEv h
  | evict => exact invB_evict h
  | remove fid => exact invB_remove h

/-- The fresh replacer satisfies the structural invariant. -/
theorem invB_init (num_frames k : Nat) : InvB (LRUKReplacer.init num_frames k) := by
  refine ⟨List.nodup_nil, ?_, ?_, rfl⟩
  · intro f
    simp [LRUKReplacer.init]
  · intro f hf
    simp [LRUKReplacer.init] at hf

/-- Any run preserves the structural invariant. -/
theorem invB_run {s : LRUKReplacer} (h : InvB s) :
    ∀ ops : List ROp, InvB (s.run ops) := by
  intro ops
  induction ops generalizing s with
  | nil => exact h
  | cons op rest ih =>
    rw [LRUKReplacer.run]
    exact ih (invB_step op h)

/-! ## Preservation of the full invariant -/

/-- Well-formedness is monotone in the timestamp bound. -/
theorem histOK_mono {kk B B' : Nat} {n : LRUKNode} (h : histOK kk B n)
    (hBB : B ≤ B') : histOK kk B' n := by
  obtain ⟨h1, h2, h3, h4, h5⟩ := h
  refine ⟨h1, h2, h3, h4, ?_⟩
  intro t ht
  have := h5 t ht
  omega

/-- A well-formed history is non-empty. -/
theorem histOK_ne_nil {kk B : Nat} {n : LRUKNode} (h : histOK kk B n) :
    n.history ≠ [] := by
  obtain ⟨_, h2, _, _, _⟩ := h
  cases hh : n.history
  · rw [hh] at h2; simp at h2
  · simp

/-- The full invariant is monotone in the bound. -/
theorem invS_mono {s : LRUKReplacer} {B B' : Nat} (h : InvS s B) (hBB : B ≤ B') :
    InvS s B' := by
  refine ⟨h.basic, by have := h.posB; omega, ?_, h.sorted, h.disj⟩
  intro f hf
  exact histOK_mono (h.hist f hf) hBB

/-- Timestamps of a recorded history come from the old history or are the new
timestamp. -/
theorem recordAccess_mem_subset {n : LRUKNode} {ts t : Nat}
    (h : t ∈ (n.RecordAccess ts).history) : t ∈ n.history ∨ t = ts := by
  unfold LRUKNode.RecordAccess at h
  simp only at h
  rcases List.mem_append.mp h with hin | hin
  · by_cases hc : n.history.length = n.k
    · rw [if_pos hc] at hin
      exact Or.inl (List.mem_of_mem_tail hin)
    · rw [if_neg hc] at hin
      exact Or.inl hin
  · simp at hin
    exact Or.inr hin

/-- SetEvictable keeps the history and the key. -/
theorem setEvictable_key (n : LRUKNode) (b : Bool) :
    (n.SetEvictable b).history = n.history ∧ (n.SetEvictable b).k = n.k ∧
      nodeKey (n.SetEvictable b) = nodeKey n := by
  refine ⟨rfl, rfl, ?_⟩
  unfold nodeKey LRUKNode.SetEvictable
  rfl

/-- The history-disjointness relation is symmetric. -/
theorem disjRel_symm {A C : List Nat} (h : ∀ t ∈ A, t ∉ C) : ∀ t ∈ C, t ∉ A :=
  fun t htC htA => h t htA htC

/-- Sortedness of the re-inserted list in RecordAccess's existing-frame path:
the scan restarts at the position after the erased one, which suffices
because recording only raises the node's key. -/
theorem pairwise_reinsert (s S1 : LRUKReplacer) (n n0 : LRUKNode) (fid : Nat)
    (tw dw : List Nat)
    (hagree : ∀ x, x ≠ fid → S1.nodeOf x = s.nodeOf x)
    (hfidnode : S1.nodeOf fid = n)
    (htwne : ∀ x ∈ tw, x ≠ fid)
    (hdwne : ∀ x ∈ dw, x ≠ fid)
    (hn0 : s.nodeOf fid = n0)
    (hkey : keyLt (nodeKey n0) (nodeKey n))
    (hcmp : ∀ x ∈ dw, (n.lt (s.nodeOf x) = true ↔
      keyLt (nodeKey n) (nodeKey (s.nodeOf x))))
    (htot : ∀ x ∈ dw, keyLt (nodeKey (s.nodeOf x)) (nodeKey n) ∨
      keyLt (nodeKey n) (nodeKey (s.nodeOf x)))
    (hsort : (tw ++ fid :: dw).Pairwise
      (fun a c => keyLt (nodeKey (s.nodeOf a)) (nodeKey (s.nodeOf c)))) :
    (tw ++ insertBeforeLt s n fid dw).Pairwise
      (fun a c => keyLt (nodeKey (S1.nodeOf a)) (nodeKey (S1.nodeOf c))) := by
  rcases List.pairwise_append.mp hsort with ⟨hs_tw, hs_cons, hcross⟩
  rcases List.pairwise_cons.mp hs_cons with ⟨hfid_dw, hs_dw⟩
  refine List.pairwise_append.mpr ⟨?_, ?_, ?_⟩
  · refine pairwise_imp_mem (fun a ha b hb hr => ?_) hs_tw
    rw [hagree a (htwne a ha), hagree b (htwne b hb)]
    exact hr
  · exact insertBeforeLt_pairwise s S1 n fid dw
      (fun x hx => hagree x (hdwne x hx)) hfidnode hcmp htot hs_dw
  · intro a ha y hy
    rw [hagree a (htwne a ha)]
    rcases insertBeforeLt_mem.mp hy with rfl | hys
    · rw [hfidnode]
      refine keyLt_trans ?_ hkey
      have := hcross a ha y (by simp)
      rwa [hn0] at this
    · rw [hagree y (hdwne y hys)]
      exact hcross a ha y (by simp [hys])

/-- Pairwise history disjointness of the re-inserted list: the updated node
keeps a subset of its old timestamps plus the fresh one, which no other
node holds. -/
theorem disj_reinsert (s S1 : LRUKReplacer) (n n0 : LRUKNode) (fid ts : Nat)
    (tw dw : List Nat)
    (hagree : ∀ x, x ≠ fid → S1.nodeOf x = s.nodeOf x)
    (hfidnode : S1.nodeOf fid = n)
    (htwne : ∀ x ∈ tw, x ≠ fid)
    (hdwne : ∀ x ∈ dw, x ≠ fid)
    (hn0 : s.nodeOf fid = n0)
    (hsub : ∀ t ∈ n.history, t ∈ n0.history ∨ t = ts)
    (hfresh : ∀ x ∈ tw ++ dw, ∀ t ∈ (s.nodeOf x).history, t ≠ ts)
    (hdisj : (tw ++ fid :: dw).Pairwise
      (fun a c => ∀ t ∈ (s.nodeOf a).history, t ∉ (s.nodeOf c).history)) :
    (tw ++ insertBeforeLt s n fid dw).Pairwise
      (fun a c => ∀ t ∈ (S1.nodeOf a).history, t ∉ (S1.nodeOf c).history) := by
  rcases List.pairwise_append.mp hdisj with ⟨hd_tw, hd_cons, hdcross⟩
  rcases List.pairwise_cons.mp hd_cons with ⟨hfid_dw, hd_dw⟩
  have hperm : (tw ++ insertBeforeLt s n fid dw).Perm (fid :: (tw ++ dw)) :=
    (List.Perm.append_left tw (insertBeforeLt_perm s n fid dw)).trans List.perm_middle
  refine (List.Perm.pairwise_iff (fun hxy => disjRel_symm hxy) hperm).mpr ?_
  refine List.pairwise_cons.mpr ⟨?_, ?_⟩
  · intro y hy
    have hyne : y ≠ fid := by
      rcases List.mem_append.mp hy with h | h
      · exact htwne y h
      · exact hdwne y h
    rw [hfidnode, hagree y hyne]
    intro t ht hty
    rcases hsub t ht with hto | hts
    · rcases List.mem_append.mp hy with hytw | hydw
      · have := hdcross y hytw fid (by simp)
        rw [hn0] at this
        exact this t hty hto
      · have := hfid_dw y hydw
        rw [hn0] at this
        exact this t hto hty
    · exact hfresh y hy t hty hts
  · have hsubl : (tw ++ dw).Sublist (tw ++ fid :: dw) :=
      List.Sublist.append_left (List.sublist_cons_self fid dw) tw
    have hd2 := List.Pairwise.sublist hsubl hdisj
    refine pairwise_imp_mem (fun a ha b hb hr => ?_) hd2
    have hane : a ≠ fid := by
      rcases List.mem_append.mp ha with h | h
      · exact htwne a h
      · exact hdwne a h
    have hbne : b ≠ fid := by
      rcases List.mem_append.mp hb with h | h
      · exact htwne b h
      · exact hdwne b h
    rw [hagree a hane, hagree b hbne]
    exact hr

/-- RecordAccess with a timestamp at or past the bound preserves the full
invariant, with the bound advanced past the new timestamp. -/
theorem invS_record {s : LRUKReplacer} {fid ts B : Nat} (h : InvS s B)
    (hk : 1 ≤ s.k) (hts : B ≤ ts) :
    InvS (s.step (.record fid ts)) (ts + 1) := by
  have hB1 : 1 ≤ B := h.posB
  by_cases h1 : s.replacer_size ≤ fid
  · rw [step_record_err h1]
    exact invS_mono h (by omega)
  · have hbasic := @invB_record s fid ts h.basic
    cases h2 : s.node_store fid with
    | none =>
      rw [step_record_ok (recordAccess_fresh h1 h2)] at hbasic ⊢
      have hfnotin : fid ∉ s.lru_list := by
        intro hm
        have := (h.basic.mem_iff fid).mp hm
        rw [h2] at this
        simp at this
      have hnh : ((LRUKNode.mk [] s.k fid false).RecordAccess ts).history = [ts] := by
        unfold LRUKNode.RecordAccess
        simp
      have hfid : ({ s with
          node_store := fun x => if x = fid then
            some ((LRUKNode.mk [] s.k fid false).RecordAccess ts) else s.node_store x,
          lru_list := insertBeforeLt s ((LRUKNode.mk [] s.k fid false).RecordAccess ts)
            fid s.lru_list } : LRUKReplacer).nodeOf fid
          = (LRUKNode.mk [] s.k fid false).RecordAccess ts :=
        nodeOf_store_some (by simp)
      have hagree : ∀ x, x ≠ fid → ({ s with
          node_store := fun x => if x = fid then
            some ((LRUKNode.mk [] s.k fid false).RecordAccess ts) else s.node_store x,
          lru_list := insertBeforeLt s ((LRUKNode.mk [] s.k fid false).RecordAccess ts)
            fid s.lru_list } : LRUKReplacer).nodeOf x = s.nodeOf x := by
        intro x hx
        exact nodeOf_congr (by simp [hx])
      have hsndts : (nodeKey ((LRUKNode.mk [] s.k fid false).RecordAccess ts)).2 = ts := by
        have := nodeKey_snd_mem (n := (LRUKNode.mk [] s.k fid false).RecordAccess ts)
          (by rw [hnh]; simp)
        rw [hnh] at this
        simpa using this
      refine ⟨hbasic, by omega, ?_, ?_, ?_⟩
      · intro f hf
        rcases insertBeforeLt_mem.mp hf with rfl | hmem
        · rw [hfid]
          show histOK s.k (ts + 1) _
          refine ⟨by rw [hnh] at *; rfl, ?_, ?_, ?_, ?_⟩
          · rw [hnh]
            simp
          · rw [hnh]
            simpa using hk
          · rw [hnh]
            simp
          · rw [hnh]
            intro t ht
            simp at ht
            omega
        · rw [hagree f (fun hff => hfnotin (hff ▸ hmem))]
          show histOK s.k (ts + 1) _
          exact histOK_mono (h.hist f hmem) (by omega)
      · refine insertBeforeLt_pairwise s _ _ fid s.lru_list
          (fun x hx => hagree x (fun hxf => hfnotin (hxf ▸ hx))) hfid ?_ ?_ h.sorted
        · intro x hx
          exact lt_iff_keyLt (histOK_ne_nil (h.hist x hx))
            (fun t ht => ((h.hist x hx).2.2.2.2 t ht).1)
        · intro x hx
          refine keyLt_or ?_
          have hx2 := nodeKey_snd_mem (histOK_ne_nil (h.hist x hx))
          have := ((h.hist x hx).2.2.2.2 _ hx2).2
          rw [hsndts]
          omega
      · have hperm := insertBeforeLt_perm s
          ((LRUKNode.mk [] s.k fid false).RecordAccess ts) fid s.lru_list
        refine (List.Perm.pairwise_iff (fun hxy => disjRel_symm hxy) hperm).mpr ?_
        refine List.pairwise_cons.mpr ⟨?_, ?_⟩
        · intro y hy
          have hyne : y ≠ fid := fun hyf => hfnotin (hyf ▸ hy)
          rw [hfid, hagree y hyne, hnh]
          intro t ht hty
          simp at ht
          rw [ht] at hty
          have := ((h.hist y hy).2.2.2.2 ts hty).2
          omega
        · refine pairwise_imp_mem (fun a ha b hb hr => ?_) h.disj
          rw [hagree a (fun haf => hfnotin (haf ▸ ha)),
            hagree b (fun hbf => hfnotin (hbf ▸ hb))]
          exact hr
    | some n0 =>
      rw [step_record_ok (recordAccess_existing h1 h2)] at hbasic ⊢
      have hn0 : s.nodeOf fid = n0 := nodeOf_store_some h2
      have hmem : fid ∈ s.lru_list := (h.basic.mem_iff fid).mpr (by rw [h2]; rfl)
      have hsplit := split_at_mem hmem
      have hOK0 : histOK s.k B n0 := by
        have := h.hist fid hmem
        rwa [hn0] at this
      have hfid : ({ s with
          node_store := fun x => if x = fid then some (n0.RecordAccess ts)
            else s.node_store x,
          lru_list := s.lru_list.takeWhile (fun x => x != fid) ++
            insertBeforeLt s (n0.RecordAccess ts) fid
              ((s.lru_list.dropWhile (fun x => x != fid)).tail) } : LRUKReplacer).nodeOf fid
          = n0.RecordAccess ts :=
        nodeOf_store_some (by simp)
      have hagree : ∀ x, x ≠ fid → ({ s with
          node_store := fun x => if x = fid then some (n0.RecordAccess ts)
            else s.node_store x,
          lru_list := s.lru_list.takeWhile (fun x => x != fid) ++
            insertBeforeLt s (n0.RecordAccess ts) fid
              ((s.lru_list.dropWhile (fun x => x != fid)).tail) } : LRUKReplacer).nodeOf x
          = s.nodeOf x := by
        intro x hx
        exact nodeOf_congr (by simp [hx])
      have htwne : ∀ x ∈ s.lru_list.takeWhile (fun x => x != fid), x ≠ fid :=
        fun x hx => mem_takeWhile_ne hx
      have hnd2 : (s.lru_list.takeWhile (fun x => x != fid) ++
          fid :: (s.lru_list.dropWhile (fun x => x != fid)).tail).Nodup := by
        rw [← hsplit]
        exact h.basic.nodup
      have hfid_notin_dw : fid ∉ (s.lru_list.dropWhile (fun x => x != fid)).tail := by
        rcases List.nodup_append.mp hnd2 with ⟨_, hndc, _⟩
        exact (List.nodup_cons.mp hndc).1
      have hdwne : ∀ x ∈ (s.lru_list.dropWhile (fun x => x != fid)).tail, x ≠ fid :=
        fun x hx hxf => hfid_notin_dw (hxf ▸ hx)
      have hmem_tw : ∀ x ∈ s.lru_list.takeWhile (fun x => x != fid), x ∈ s.lru_list := by
        intro x hx
        rw [hsplit]
        exact List.mem_append.mpr (Or.inl hx)
      have hmem_dw : ∀ x ∈ (s.lru_list.dropWhile (fun x => x != fid)).tail,
          x ∈ s.lru_list := by
        intro x hx
        rw [hsplit]
        exact List.mem_append.mpr (Or.inr (by simp [hx]))
      have hsort2 : (s.lru_list.takeWhile (fun x => x != fid) ++
          fid :: (s.lru_list.dropWhile (fun x => x != fid)).tail).Pairwise
            (fun a c => keyLt (nodeKey (s.nodeOf a)) (nodeKey (s.nodeOf c))) := by
        rw [← hsplit]
        exact h.sorted
      have hdisj2 : (s.lru_list.takeWhile (fun x => x != fid) ++
          fid :: (s.lru_list.dropWhile (fun x => x != fid)).tail).Pairwise
            (fun a c => ∀ t ∈ (s.nodeOf a).history, t ∉ (s.nodeOf c).history) := by
        rw [← hsplit]
        exact h.disj
      have hkey : keyLt (nodeKey n0) (nodeKey (n0.RecordAccess ts)) :=
        nodeKey_lt_recordAccess hOK0 hk hts
      have hsub : ∀ t ∈ (n0.RecordAccess ts).history, t ∈ n0.history ∨ t = ts :=
        fun t ht => recordAccess_mem_subset ht
      have hsnd_cases : (nodeKey (n0.RecordAccess ts)).2 ∈ n0.history ∨
          (nodeKey (n0.RecordAccess ts)).2 = ts :=
        hsub _ (nodeKey_snd_mem (recordAccess_ne_nil n0 ts))
      have hfid_dw_disj : ∀ y ∈ (s.lru_list.dropWhile (fun x => x != fid)).tail,
          ∀ t ∈ n0.history, t ∉ (s.nodeOf y).history := by
        rcases List.pairwise_append.mp hdisj2 with ⟨_, hd_cons, _⟩
        rcases List.pairwise_cons.mp hd_cons with ⟨hfd, _⟩
        intro y hy
        have := hfd y hy
        rwa [hn0] at this
      refine ⟨hbasic, by omega, ?_, ?_, ?_⟩
      · intro f hf
        show histOK s.k (ts + 1) _
        rcases List.mem_append.mp hf with htw | hins
        · rw [hagree f (htwne f htw)]
          exact histOK_mono (h.hist f (hmem_tw f htw)) (by omega)
        · rcases insertBeforeLt_mem.mp hins with rfl | hdw
          · rw [hfid]
            exact histOK_recordAccess hOK0 hk hB1 hts
          · rw [hagree f (hdwne f hdw)]
            exact histOK_mono (h.hist f (hmem_dw f hdw)) (by omega)
      · refine pairwise_reinsert s _ (n0.RecordAccess ts) n0 fid _ _
          hagree hfid htwne hdwne hn0 hkey ?_ ?_ hsort2
        · intro x hx
          exact lt_iff_keyLt (histOK_ne_nil (h.hist x (hmem_dw x hx)))
            (fun t ht => ((h.hist x (hmem_dw x hx)).2.2.2.2 t ht).1)
        · intro x hx
          refine keyLt_or ?_
          have hx2 := nodeKey_snd_mem (histOK_ne_nil (h.hist x (hmem_dw x hx)))
          rcases hsnd_cases with hino | hts2
          · intro heq
            refine hfid_dw_disj x hx _ hino ?_
            rw [heq] at hx2
            exact hx2
          · have := ((h.hist x (hmem_dw x hx)).2.2.2.2 _ hx2).2
            rw [hts2]
            omega
      · refine disj_reinsert s _ (n0.RecordAccess ts) n0 fid ts _ _
          hagree hfid htwne hdwne hn0 hsub ?_ hdisj2
        intro x hx t ht hteq
        have hxl : x ∈ s.lru_list := by
          rcases List.mem_append.mp hx with h3 | h3
          · exact hmem_tw x h3
          · exact hmem_dw x h3
        have := ((h.hist x hxl).2.2.2.2 t ht).2
        omega

/-- SetEvictable preserves the full invariant: the list and all histories and
keys are unchanged. -/
theorem invS_setEv {s : LRUKReplacer} {fid : Nat} {b : Bool} {B : Nat}
    (h : InvS s B) : InvS (s.step (.setEv fid b)) B := by
  have hbasic := @invB_setEv s fid b h.basic
  rw [step_setEv] at hbasic ⊢
  cases h2 : s.node_store fid with
  | none =>
    rw [setEvictable_unknown h2]
    exact h
  | some n =>
    by_cases he : n.is_evictable = b
    · rw [setEvictable_same h2 he]
      exact h
    · rw [setEvictable_flip h2 he] at hbasic ⊢
      have hn : s.nodeOf fid = n := nodeOf_store_some h2
      have hfid : ({ s with
          node_store := fun x => if x = fid then some (n.SetEvictable b)
            else s.node_store x,
          curr_size := if b then s.curr_size + 1 else s.curr_size - 1 }
            : LRUKReplacer).nodeOf fid = n.SetEvictable b :=
        nodeOf_store_some (by simp)
      have hagree : ∀ x, x ≠ fid → ({ s with
          node_store := fun x => if x = fid then some (n.SetEvictable b)
            else s.node_store x,
          curr_size := if b then s.curr_size + 1 else s.curr_size - 1 }
            : LRUKReplacer).nodeOf x = s.nodeOf x := by
        intro x hx
        exact nodeOf_congr (by simp [hx])
      have hkeyeq : ∀ x ∈ s.lru_list, nodeKey (({ s with
          node_store := fun x => if x = fid then some (n.SetEvictable b)
            else s.node_store x,
          curr_size := if b then s.curr_size + 1 else s.curr_size - 1 }
            : LRUKReplacer).nodeOf x) = nodeKey (s.nodeOf x) := by
        intro x _
        by_cases hx : x = fid
        · subst hx
          rw [hfid, hn, (setEvictable_key n b).2.2]
        · rw [hagree x hx]
      have hhisteq : ∀ x ∈ s.lru_list, (({ s with
          node_store := fun x => if x = fid then some (n.SetEvictable b)
            else s.node_store x,
          curr_size := if b then s.curr_size + 1 else s.curr_size - 1 }
            : LRUKReplacer).nodeOf x).history = (s.nodeOf x).history := by
        intro x _
        by_cases hx : x = fid
        · subst hx
          rw [hfid, hn, (setEvictable_key n b).1]
        · rw [hagree x hx]
      refine ⟨hbasic, h.posB, ?_, ?_, ?_⟩
      · intro f hf
        show histOK s.k B _
        by_cases hx : f = fid
        · subst hx
          rw [hfid]
          have hold := h.hist f hf
          rw [hn] at hold
          obtain ⟨e1, e2, e3, e4, e5⟩ := hold
          exact ⟨e1, e2, e3, e4, e5⟩
        · rw [hagree f hx]
          exact h.hist f hf
      · refine pairwise_imp_mem (fun a ha c hc hr => ?_) h.sorted
        rw [hkeyeq a ha, hkeyeq c hc]
        exact hr
      · refine pairwise_imp_mem (fun a ha c hc hr => ?_) h.disj
        rw [hhisteq a ha, hhisteq c hc]
        exact hr

/-- Evict preserves the full invariant. -/
theorem invS_evict {s : LRUKReplacer} {B : Nat} (h : InvS s B) :
    InvS (s.step .evict) B := by
  have hbasic := invB_evict h.basic
  rw [step_evict] at hbasic ⊢
  by_cases h1 : s.curr_size = 0
  · rw [evict_empty h1]
    exact h
  · cases hf : s.lru_list.find? (fun f => (s.nodeOf f).is_evictable) with
    | none =>
      rw [evict_notfound h1 hf]
      exact h
    | some v =>
      rw [evict_found h1 hf] at hbasic ⊢
      have hagree : ∀ x, x ≠ v → ({ s with
          lru_list := s.lru_list.erase v,
          node_store := fun x => if x = v then none else s.node_store x,
          curr_size := s.curr_size - 1 } : LRUKReplacer).nodeOf x = s.nodeOf x := by
        intro x hx
        exact nodeOf_congr (by simp [hx])
      have hmem_er : ∀ x ∈ s.lru_list.erase v, x ≠ v ∧ x ∈ s.lru_list :=
        fun x hx => (h.basic.nodup.mem_erase_iff).mp hx
      refine ⟨hbasic, h.posB, ?_, ?_, ?_⟩
      · intro f hf2
        show histOK s.k B _
        rcases hmem_er f hf2 with ⟨hne, hl⟩
        rw [hagree f hne]
        exact h.hist f hl
      · have hsub := List.Pairwise.sublist (List.erase_sublist v s.lru_list) h.sorted
        refine pairwise_imp_mem (fun a ha c hc hr => ?_) hsub
        rw [hagree a (hmem_er a ha).1, hagree c (hmem_er c hc).1]
        exact hr
      · have hsub := List.Pairwise.sublist (List.erase_sublist v s.lru_list) h.disj
        refine pairwise_imp_mem (fun a ha c hc hr => ?_) hsub
        rw [hagree a (hmem_er a ha).1, hagree c (hmem_er c hc).1]
        exact hr

/-- Remove preserves the full invariant. -/
theorem invS_remove {s : LRUKReplacer} {fid : Nat} {B : Nat} (h : InvS s B) :
    InvS (s.step (.remove fid)) B := by
  have hbasic := @invB_remove s fid h.basic
  cases h2 : s.node_store fid with
  | none =>
    rw [step_remove_ok (remove_unknown h2)]
    exact h
  | some n =>
    by_cases he : n.is_evictable = true
    · rw [step_remove_ok (remove_ok h2 he)] at hbasic ⊢
      have hagree : ∀ x, x ≠ fid → ({ s with
          lru_list := s.lru_list.erase fid,
          node_store := fun x => if x = fid then none else s.node_store x,
          curr_size := s.curr_size - 1 } : LRUKReplacer).nodeOf x = s.nodeOf x := by
        intro x hx
        exact nodeOf_congr (by simp [hx])
      have hmem_er : ∀ x ∈ s.lru_list.erase fid, x ≠ fid ∧ x ∈ s.lru_list :=
        fun x hx => (h.basic.nodup.mem_erase_iff).mp hx
      refine ⟨hbasic, h.posB, ?_, ?_, ?_⟩
      · intro f hf2
        show histOK s.k B _
        rcases hmem_er f hf2 with ⟨hne, hl⟩
        rw [hagree f hne]
        exact h.hist f hl
      · have hsub := List.Pairwise.sublist (List.erase_sublist fid s.lru_list) h.sorted
        refine pairwise_imp_mem (fun a ha c hc hr => ?_) hsub
        rw [hagree a (hmem_er a ha).1, hagree c (hmem_er c hc).1]
        exact hr
      · have hsub := List.Pairwise.sublist (List.erase_sublist fid s.lru_list) h.disj
        refine pairwise_imp_mem (fun a ha c hc hr => ?_) hsub
        rw [hagree a (hmem_er a ha).1, hagree c (hmem_er c hc).1]
        exact hr
    · rw [step_remove_err (remove_pinned h2 (by simpa using he))]
      exact h

/-- The fresh replacer satisfies the full invariant with bound 1. -/
theorem invS_init (num_frames k : Nat) : InvS (LRUKReplacer.init num_frames k) 1 := by
  refine ⟨invB_init num_frames k, le_refl 1, ?_, ?_, ?_⟩
  · intro f hf
    simp [LRUKReplacer.init] at hf
  · simp [LRUKReplacer.init]
  · simp [LRUKReplacer.init]

/-- Every valid trace from a fully-invariant state ends in a fully-invariant
state. -/
theorem invS_run {s : LRUKReplacer} {B : Nat} {ops : List ROp}
    (hk : 1 ≤ s.k) (hv : validOps B ops = true) (h : InvS s B) :
    ∃ B', InvS (s.run ops) B' := by
  induction ops generalizing s B with
  | nil => exact ⟨B, h⟩
  | cons op rest ih =>
    rw [LRUKReplacer.run]
    have hk' : 1 ≤ (s.step op).k := by
      rw [(step_fields s op).1]
      exact hk
    cases op with
    | record fid ts =>
      simp only [validOps] at hv
      rcases Bool.and_eq_true_iff.mp hv with ⟨h1, h2⟩
      have hts : B ≤ ts := of_decide_eq_true h1
      exact ih hk' h2 (invS_record h hk hts)
    | setEv fid b =>
      simp only [validOps] at hv
      exact ih hk' hv (invS_setEv h)
    | evict =>
      simp only [validOps] at hv
      exact ih hk' hv (invS_evict h)
    | remove fid =>
      simp only [validOps] at hv
      exact ih hk' hv (invS_remove h)

/-! ## Claim C1: the eviction victim -/

/-- C1.  For every replacer state reached by a valid call sequence (strictly
increasing positive timestamps, k at least 1) in which at least one frame is
evictable, Evict returns an evictable frame that strictly precedes every
other evictable frame in the specification's victim order: largest
backward-K-distance first, where fewer than k accesses means distance
plus-infinity, ties among infinite-distance frames broken by the earliest
most-recent access, and ties among finite distances by the oldest k-th most
recent access. -/
theorem c1_evict_returns_max_backward_k_distance (N k : Nat) (ops : List ROp)
    (hk : 1 ≤ k) (hv : validOps 1 ops = true)
    (hex : ∃ f ∈ (runReplacer N k ops).lru_list,
      ((runReplacer N k ops).nodeOf f).is_evictable = true) :
    ∃ v, ((runReplacer N k ops).Evict).1 = some v ∧
      v ∈ (runReplacer N k ops).lru_list ∧
      ((runReplacer N k ops).nodeOf v).is_evictable = true ∧
      ∀ g ∈ (runReplacer N k ops).lru_list,
        ((runReplacer N k ops).nodeOf g).is_evictable = true → g ≠ v →
          SpecVictimPrecedes ((runReplacer N k ops).nodeOf v)
            ((runReplacer N k ops).nodeOf g) := by
  obtain ⟨B', hinv0⟩ := invS_run (s := LRUKReplacer.init N k) hk hv (invS_init N k)
  have hinv : InvS (runReplacer N k ops) B' := hinv0
  have hex' : ∃ f ∈ (runReplacer N k ops).lru_list,
      (fun f => ((runReplacer N k ops).nodeOf f).is_evictable) f = true := hex
  obtain ⟨v, hfind⟩ := find?_isSome_of_exists hex'
  have hne0 : ¬ (runReplacer N k ops).curr_size = 0 := by
    obtain ⟨f, hf, hev⟩ := hex
    have hmemf : f ∈ (runReplacer N k ops).lru_list.filter
        (fun f => ((runReplacer N k ops).nodeOf f).is_evictable) :=
      List.mem_filter.mpr ⟨hf, hev⟩
    have := hinv.basic.size_eq
    intro h0
    rw [h0] at this
    rcases List.length_pos.mpr (List.ne_nil_of_mem hmemf) with hlen
    omega
  refine ⟨v, ?_, List.mem_of_find?_eq_some hfind, ?_, ?_⟩
  · rw [evict_found hne0 hfind]
  · have hps := List.find?_some hfind
    exact hps
  · intro g hg hev hgv
    have hkey := find?_first_rel hinv.sorted hfind g hg hev hgv
    exact (specPrecedes_iff_keyLt _ _).mpr hkey

/-- Witness for C1 at a concrete run: capacity 3, k 2, frames 0 and 1 each
accessed once and made evictable; frame 0 (the older access) is the victim. -/
theorem c1_evict_witness :
    ∃ v, ((runReplacer 3 2 [.record 0 1, .record 1 2, .setEv 0 true,
        .setEv 1 true]).Evict).1 = some v ∧
      v ∈ (runReplacer 3 2 [.record 0 1, .record 1 2, .setEv 0 true,
        .setEv 1 true]).lru_list ∧
      ((runReplacer 3 2 [.record 0 1, .record 1 2, .setEv 0 true,
        .setEv 1 true]).nodeOf v).is_evictable = true ∧
      ∀ g ∈ (runReplacer 3 2 [.record 0 1, .record 1 2, .setEv 0 true,
          .setEv 1 true]).lru_list,
        ((runReplacer 3 2 [.record 0 1, .record 1 2, .setEv 0 true,
          .setEv 1 true]).nodeOf g).is_evictable = true →
        g ≠ v →
          SpecVictimPrecedes
            ((runReplacer 3 2 [.record 0 1, .record 1 2, .setEv 0 true,
              .setEv 1 true]).nodeOf v)
            ((runReplacer 3 2 [.record 0 1, .record 1 2, .setEv 0 true,
              .setEv 1 true]).nodeOf g) :=
  c1_evict_returns_max_backward_k_distance 3 2
    [.record 0 1, .record 1 2, .setEv 0 true, .setEv 1 true]
    (by decide) (by decide) (by decide)

/-! ## Claim C6: size accounting -/

/-- A tracked evictable frame forces a positive curr_size. -/
theorem curr_pos_of_evictable {s : LRUKReplacer} {fid : Nat} {n : LRUKNode}
    (h : InvB s) (h2 : s.node_store fid = some n) (he : n.is_evictable = true) :
    1 ≤ s.curr_size := by
  have hmem : fid ∈ s.lru_list := (h.mem_iff fid).mpr (by rw [h2]; rfl)
  have hsz := h.size_eq
  rw [length_filter_cons_erase hmem] at hsz
  have hpred : (s.nodeOf fid).is_evictable = true := by
    rw [nodeOf_store_some h2]
    exact he
  rw [hpred] at hsz
  simp at hsz
  omega

/-- RecordAccess never changes curr_size. -/
theorem step_record_size (s : LRUKReplacer) (fid ts : Nat) :
    (s.step (.record fid ts)).curr_size = s.curr_size := by
  by_cases h1 : s.replacer_size ≤ fid
  · rw [step_record_err h1]
  · cases h2 : s.node_store fid with
    | none => rw [step_record_ok (recordAccess_fresh h1 h2)]
    | some n0 => rw [step_record_ok (recordAccess_existing h1 h2)]

/-- Trace counter equation: record steps pass the counters through. -/
theorem countTrans_cons_record (s : LRUKReplacer) (fid ts : Nat) (rest : List ROp) :
    countTrans s (.record fid ts :: rest) = countTrans (s.step (.record fid ts)) rest := by
  simp only [countTrans]

/-- Trace counter equation: SetEvictable on an unknown frame. -/
theorem countTrans_cons_setEv_unknown {s : LRUKReplacer} {fid : Nat} {b : Bool}
    {rest : List ROp} (h2 : s.node_store fid = none) :
    countTrans s (.setEv fid b :: rest) = countTrans (s.step (.setEv fid b)) rest := by
  simp only [countTrans]
  rw [h2]

/-- Trace counter equation: SetEvictable without a transition. -/
theorem countTrans_cons_setEv_same {s : LRUKReplacer} {fid : Nat} {b : Bool}
    {n : LRUKNode} {rest : List ROp} (h2 : s.node_store fid = some n)
    (he : n.is_evictable = b) :
    countTrans s (.setEv fid b :: rest) = countTrans (s.step (.setEv fid b)) rest := by
  simp only [countTrans]
  rw [h2]
  simp [he]

/-- Trace counter equation: a real false-to-true transition. -/
theorem countTrans_cons_setEv_up {s : LRUKReplacer} {fid : Nat}
    {n : LRUKNode} {rest : List ROp} (h2 : s.node_store fid = some n)
    (he : n.is_evictable = false) :
    countTrans s (.setEv fid true :: rest) =
      ((countTrans (s.step (.setEv fid true)) rest).1 + 1,
       (countTrans (s.step (.setEv fid true)) rest).2.1,
       (countTrans (s.step (.setEv fid true)) rest).2.2.1,
       (countTrans (s.step (.setEv fid true)) rest).2.2.2) := by
  simp only [countTrans]
  rw [h2]
  simp [he]

/-- Trace counter equation: a real true-to-false transition. -/
theorem countTrans_cons_setEv_down {s : LRUKReplacer} {fid : Nat}
    {n : LRUKNode} {rest : List ROp} (h2 : s.node_store fid = some n)
    (he : n.is_evictable = true) :
    countTrans s (.setEv fid false :: rest) =
      ((countTrans (s.step (.setEv fid false)) rest).1,
       (countTrans (s.step (.setEv fid false)) rest).2.1 + 1,
       (countTrans (s.step (.setEv fid false)) rest).2.2.1,
       (countTrans (s.step (.setEv fid false)) rest).2.2.2) := by
  simp only [countTrans]
  rw [h2]
  simp [he]

/-- Trace counter equation: a failed Evict. -/
theorem countTrans_cons_evict_none {s : LRUKReplacer} {rest : List ROp}
    (h : (s.Evict).1.isSome = false) :
    countTrans s (.evict :: rest) = countTrans (s.step .evict) rest := by
  simp only [countTrans]
  rw [h]
  simp

/-- Trace counter equation: a successful Evict. -/
theorem countTrans_cons_evict_some {s : LRUKReplacer} {rest : List ROp}
    (h : (s.Evict).1.isSome = true) :
    countTrans s (.evict :: rest) =
      ((countTrans (s.step .evict) rest).1,
       (countTrans (s.step .evict) rest).2.1,
       (countTrans (s.step .evict) rest).2.2.1 + 1,
       (countTrans (s.step .evict) rest).2.2.2) := by
  simp only [countTrans]
  rw [h]
  simp

/-- Trace counter equation: Remove on an unknown frame. -/
theorem countTrans_cons_remove_unknown {s : LRUKReplacer} {fid : Nat}
    {rest : List ROp} (h2 : s.node_store fid = none) :
    countTrans s (.remove fid :: rest) = countTrans (s.step (.remove fid)) rest := by
  simp only [countTrans]
  rw [h2]

/-- Trace counter equation: Remove on a pinned frame. -/
theorem countTrans_cons_remove_pinned {s : LRUKReplacer} {fid : Nat}
    {n : LRUKNode} {rest : List ROp} (h2 : s.node_store fid = some n)
    (he : n.is_evictable = false) :
    countTrans s (.remove fid :: rest) = countTrans (s.step (.remove fid)) rest := by
  simp only [countTrans]
  rw [h2]
  simp [he]

/-- Trace counter equation: a successful Remove. -/
theorem countTrans_cons_remove_ok {s : LRUKReplacer} {fid : Nat}
    {n : LRUKNode} {rest : List ROp} (h2 : s.node_store fid = some n)
    (he : n.is_evictable = true) :
    countTrans s (.remove fid :: rest) =
      ((countTrans (s.step (.remove fid)) rest).1,
       (countTrans (s.step (.remove fid)) rest).2.1,
       (countTrans (s.step (.remove fid)) rest).2.2.1,
       (countTrans (s.step (.remove fid)) rest).2.2.2 + 1) := by
  simp only [countTrans]
  rw [h2]
  simp [he]

/-- The running size equation over any trace from a structurally sound state:
upward transitions balance the final size plus all downward transitions,
evictions and removals. -/
theorem countTrans_size (ops : List ROp) :
    ∀ {s : LRUKReplacer}, InvB s →
      (countTrans s ops).1 + s.curr_size
        = (s.run ops).curr_size + (countTrans s ops).2.1
          + (countTrans s ops).2.2.1 + (countTrans s ops).2.2.2 := by
  induction ops with
  | nil =>
    intro s _
    simp [countTrans, LRUKReplacer.run]
  | cons op rest ih =>
    intro s h
    rw [LRUKReplacer.run]
    have ihs := ih (invB_step op h)
    cases op with
    | record fid ts =>
      rw [countTrans_cons_record]
      have hsz := step_record_size s fid ts
      omega
    | setEv fid b =>
      cases h2 : s.node_store fid with
      | none =>
        rw [countTrans_cons_setEv_unknown h2]
        have hstep : s.step (.setEv fid b) = s := by
          rw [step_setEv, setEvictable_unknown h2]
        rw [hstep] at ihs ⊢
        omega
      | some n =>
        by_cases he : n.is_evictable = b
        · rw [countTrans_cons_setEv_same h2 he]
          have hstep : s.step (.setEv fid b) = s := by
            rw [step_setEv, setEvictable_same h2 he]
          rw [hstep] at ihs ⊢
          omega
        · cases b with
          | true =>
            have hef : n.is_evictable = false := by simpa using he
            rw [countTrans_cons_setEv_up h2 hef]
            have hsz : (s.step (.setEv fid true)).curr_size = s.curr_size + 1 := by
              rw [step_setEv, setEvictable_flip h2 he]
              simp
            simp only [Prod.fst, Prod.snd]
            omega
          | false =>
            have het : n.is_evictable = true := by simpa using he
            rw [countTrans_cons_setEv_down h2 het]
            have hpos : 1 ≤ s.curr_size := curr_pos_of_evictable h h2 het
            have hsz : (s.step (.setEv fid false)).curr_size = s.curr_size - 1 := by
              rw [step_setEv, setEvictable_flip h2 he]
              simp
            simp only [Prod.fst, Prod.snd]
            omega
    | evict =>
      by_cases h1 : s.curr_size = 0
      · have hnone : (s.Evict).1.isSome = false := by
          rw [evict_empty h1]
          rfl
        rw [countTrans_cons_evict_none hnone]
        have hstep : s.step .evict = s := by
          rw [step_evict, evict_empty h1]
        rw [hstep] at ihs ⊢
        omega
      · cases hf : s.lru_list.find? (fun f => (s.nodeOf f).is_evictable) with
        | none =>
          have hnone : (s.Evict).1.isSome = false := by
            rw [evict_notfound h1 hf]
            rfl
          rw [countTrans_cons_evict_none hnone]
          have hstep : s.step .evict = s := by
            rw [step_evict, evict_notfound h1 hf]
          rw [hstep] at ihs ⊢
          omega
        | some v =>
          have hsome : (s.Evict).1.isSome = true := by
            rw [evict_found h1 hf]
            rfl
          rw [countTrans_cons_evict_some hsome]
          have hsz : (s.step .evict).curr_size = s.curr_size - 1 := by
            rw [step_evict, evict_found h1 hf]
          simp only [Prod.fst, Prod.snd]
          omega
    | remove fid =>
      cases h2 : s.node_store fid with
      | none =>
        rw [countTrans_cons_remove_unknown h2]
        have hstep : s.step (.remove fid) = s := step_remove_ok (remove_unknown h2)
        rw [hstep] at ihs ⊢
        omega
      | some n =>
        by_cases he : n.is_evictable = true
        · rw [countTrans_cons_remove_ok h2 he]
          have hpos : 1 ≤ s.curr_size := curr_pos_of_evictable h h2 he
          have hsz : (s.step (.remove fid)).curr_size = s.curr_size - 1 := by
            rw [step_remove_ok (remove_ok h2 he)]
          simp only [Prod.fst, Prod.snd]
          omega
        · have hef : n.is_evictable = false := by simpa using he
          rw [countTrans_cons_remove_pinned h2 hef]
          have hstep : s.step (.remove fid) = s :=
            step_remove_err (remove_pinned h2 hef)
          rw [hstep] at ihs ⊢
          omega

/-- The current size never exceeds the capacity in a structurally sound
state. -/
theorem curr_size_le_capacity {s : LRUKReplacer} (h : InvB s) :
    s.curr_size ≤ s.replacer_size := by
  have hsub : (s.lru_list.filter fun f => (s.nodeOf f).is_evictable).length
      ≤ s.lru_list.length := List.length_filter_le _ _
  have hlen : s.lru_list.length ≤ s.replacer_size := by
    have hsubp : s.lru_list.Subperm (List.range s.replacer_size) := by
      refine List.subperm_of_subset h.nodup ?_
      intro x hx
      exact List.mem_range.mpr (h.fid_lt x hx)
    have := hsubp.length_le
    simpa using this
  rw [h.size_eq]
  omega

/-- C6.  Over every call sequence on a fresh replacer of capacity N, the
reported Size equals the number of real false-to-true SetEvictable
transitions minus the real true-to-false transitions minus the successful
Evicts minus the successful Removes, and Size never exceeds N (it is a Nat,
hence never negative). -/
theorem c6_size_accounting (N k : Nat) (ops : List ROp) :
    (((runReplacer N k ops).Size : Int)
        = ((countTrans (LRUKReplacer.init N k) ops).1 : Int)
          - ((countTrans (LRUKReplacer.init N k) ops).2.1 : Int)
          - ((countTrans (LRUKReplacer.init N k) ops).2.2.1 : Int)
          - ((countTrans (LRUKReplacer.init N k) ops).2.2.2 : Int)) ∧
      (runReplacer N k ops).Size ≤ N := by
  have hinv0 := invB_init N k
  have heq := countTrans_size ops hinv0
  have hrun : InvB (runReplacer N k ops) := invB_run hinv0 ops
  have hcap := curr_size_le_capacity hrun
  have hN : (runReplacer N k ops).replacer_size = N := by
    have : ∀ ops' : List ROp, ∀ s : LRUKReplacer,
        (s.run ops').replacer_size = s.replacer_size := by
      intro ops'
      induction ops' with
      | nil => intro s; rfl
      | cons op rest ih =>
        intro s
        rw [LRUKReplacer.run, ih, (step_fields s op).2]
    exact this ops (LRUKReplacer.init N k)
  constructor
  · show ((runReplacer N k ops).curr_size : Int) = _
    have hz : (LRUKReplacer.init N k).curr_size = 0 := rfl
    rw [hz] at heq
    have heq2 : (countTrans (LRUKReplacer.init N k) ops).1
        = (runReplacer N k ops).curr_size
          + (countTrans (LRUKReplacer.init N k) ops).2.1
          + (countTrans (LRUKReplacer.init N k) ops).2.2.1
          + (countTrans (LRUKReplacer.init N k) ops).2.2.2 := by
      simpa [runReplacer] using heq
    omega
  · show (runReplacer N k ops).curr_size ≤ N
    have hc2 := hcap
    rw [hN] at hc2
    exact hc2

/-! ## Claim C7: the replacer's error surface -/

/-- C7.  On any replacer state: RecordAccess throws OUT_OF_RANGE exactly when
the frame id reaches the capacity (frame ids are non-negative by the data
model), and throws nothing else; Remove throws the invalid-state error
exactly when the frame is tracked and not evictable, and throws nothing
else; SetEvictable and Remove on an unknown frame are no-ops returning the
state unchanged (SetEvictable and Evict cannot throw at all, as their
types show). -/
theorem c7_replacer_error_surface (s : LRUKReplacer) (fid ts : Nat) (b : Bool) :
    (s.RecordAccess fid ts = .error .outOfRange ↔ s.replacer_size ≤ fid) ∧
    (∀ e, s.RecordAccess fid ts = .error e → e = .outOfRange) ∧
    (s.Remove fid = .error .invalidState ↔
      ∃ n, s.node_store fid = some n ∧ n.is_evictable = false) ∧
    (∀ e, s.Remove fid = .error e → e = .invalidState) ∧
    (s.node_store fid = none → s.SetEvictable fid b = s) ∧
    (s.node_store fid = none → s.Remove fid = .ok s) := by
  refine ⟨?_, ?_, ?_, ?_, fun h => setEvictable_unknown h, fun h => remove_unknown h⟩
  · constructor
    · intro herr
      by_cases hc : s.replacer_size ≤ fid
      · exact hc
      · exfalso
        cases h2 : s.node_store fid with
        | none => rw [recordAccess_fresh hc h2] at herr; exact Except.noConfusion herr
        | some n0 => rw [recordAccess_existing hc h2] at herr; exact Except.noConfusion herr
    · intro hc
      exact recordAccess_err hc
  · intro e herr
    by_cases hc : s.replacer_size ≤ fid
    · rw [recordAccess_err hc] at herr
      injection herr with h3
      exact h3.symm
    · exfalso
      cases h2 : s.node_store fid with
      | none => rw [recordAccess_fresh hc h2] at herr; exact Except.noConfusion herr
      | some n0 => rw [recordAccess_existing hc h2] at herr; exact Except.noConfusion herr
  · constructor
    · intro herr
      cases h2 : s.node_store fid with
      | none =>
        rw [remove_unknown h2] at herr
        exact Except.noConfusion herr
      | some n =>
        by_cases he : n.is_evictable = true
        · rw [remove_ok h2 he] at herr
          exact Except.noConfusion herr
        · exact ⟨n, rfl, by simpa using he⟩
    · rintro ⟨n, h2, he⟩
      exact remove_pinned h2 he
  · intro e herr
    cases h2 : s.node_store fid with
    | none =>
      rw [remove_unknown h2] at herr
      exact Except.noConfusion herr
    | some n =>
      by_cases he : n.is_evictable = true
      · rw [remove_ok h2 he] at herr
        exact Except.noConfusion herr
      · rw [remove_pinned h2 (by simpa using he)] at herr
        cases herr
        rfl

/-- Witness for C7 at a concrete state (capacity 2, k 1, frame 0 tracked and
not evictable): RecordAccess on frame 7 throws exactly OUT_OF_RANGE,
SetEvictable and Remove on the unknown frame 1 are no-ops, and Remove on
the pinned frame 0 throws the invalid-state error. -/
theorem c7_witness :
    ((runReplacer 2 1 [.record 0 5]).RecordAccess 7 9 = .error .outOfRange) ∧
    ((runReplacer 2 1 [.record 0 5]).SetEvictable 1 true = runReplacer 2 1 [.record 0 5]) ∧
    ((runReplacer 2 1 [.record 0 5]).Remove 1 = .ok (runReplacer 2 1 [.record 0 5])) ∧
    ((runReplacer 2 1 [.record 0 5]).Remove 0 = .error .invalidState) :=
  ⟨(c7_replacer_error_surface (runReplacer 2 1 [.record 0 5]) 7 9 true).1.mpr (by decide),
   (c7_replacer_error_surface (runReplacer 2 1 [.record 0 5]) 1 9 true).2.2.2.2.1 (by decide),
   (c7_replacer_error_surface (runReplacer 2 1 [.record 0 5]) 1 9 true).2.2.2.2.2 (by decide),
   (c7_replacer_error_surface (runReplacer 2 1 [.record 0 5]) 0 9 true).2.2.1.mpr
     ⟨(runReplacer 2 1 [.record 0 5]).nodeOf 0, by decide, by decide⟩⟩

/-! ## Claim C10: no history access on an empty list when k is at least 1 -/

/-- The node comparison touches only non-empty histories when both are
non-empty. -/
theorem ltSafe_of_ne_nil {a c : LRUKNode} (ha : a.history ≠ []) (hc : c.history ≠ []) :
    a.ltSafe c = true := by
  unfold LRUKNode.ltSafe LRUKNode.FrontSafe
  have ha' : a.history.isEmpty = false := by
    cases hh : a.history
    · exact absurd hh ha
    · rfl
  have hc' : c.history.isEmpty = false := by
    cases hh : c.history
    · exact absurd hh hc
    · rfl
  by_cases h : a.history.length < a.k ∧ c.history.length < c.k
  · simp [h, ha', hc']
  · simp [h, ha', hc']

/-- A node with a non-empty history records safely. -/
theorem recordAccessSafe_node_of_ne_nil {n : LRUKNode} (h : n.history ≠ []) :
    n.RecordAccessSafe = true := by
  unfold LRUKNode.RecordAccessSafe
  have h' : n.history.isEmpty = false := by
    cases hh : n.history
    · exact absurd hh h
    · rfl
  simp [h']

/-- The history-nonemptiness invariant holds on the fresh replacer. -/
theorem invH_init (num_frames k : Nat) : InvH (LRUKReplacer.init num_frames k) := by
  intro f hf
  simp [LRUKReplacer.init] at hf

/-- Every step preserves history non-emptiness, with no condition on the
timestamp supplied to RecordAccess (repeated or decreasing wall-clock
stamps included). -/
theorem invH_step {s : LRUKReplacer} (op : ROp) (hb : InvB s) (h : InvH s) :
    InvH (s.step op) := by
  cases op with
  | record fid ts =>
    by_cases h1 : s.replacer_size ≤ fid
    · rw [step_record_err h1]
      exact h
    · cases h2 : s.node_store fid with
      | none =>
        rw [step_record_ok (recordAccess_fresh h1 h2)]
        have hfnotin : fid ∉ s.lru_list := by
          intro hm
          have := (hb.mem_iff fid).mp hm
          rw [h2] at this
          simp at this
        have hfid : ({ s with
            node_store := fun x => if x = fid then
              some ((LRUKNode.mk [] s.k fid false).RecordAccess ts) else s.node_store x,
            lru_list := insertBeforeLt s ((LRUKNode.mk [] s.k fid false).RecordAccess ts)
              fid s.lru_list } : LRUKReplacer).nodeOf fid
            = (LRUKNode.mk [] s.k fid false).RecordAccess ts :=
          nodeOf_store_some (by simp)
        have hagree : ∀ x, x ≠ fid → ({ s with
            node_store := fun x => if x = fid then
              some ((LRUKNode.mk [] s.k fid false).RecordAccess ts) else s.node_store x,
            lru_list := insertBeforeLt s ((LRUKNode.mk [] s.k fid false).RecordAccess ts)
              fid s.lru_list } : LRUKReplacer).nodeOf x = s.nodeOf x := by
          intro x hx
          exact nodeOf_congr (by simp [hx])
        intro f hf
        rcases insertBeforeLt_mem.mp hf with rfl | hmem
        · rw [hfid]
          exact recordAccess_ne_nil _ ts
        · have hne : f ≠ fid := fun hff => hfnotin (hff ▸ hmem)
          rw [hagree f hne]
          exact h f hmem
      | some n0 =>
        rw [step_record_ok (recordAccess_existing h1 h2)]
        have hmem : fid ∈ s.lru_list := (hb.mem_iff fid).mpr (by rw [h2]; rfl)
        have hsplit := split_at_mem hmem
        have hnd2 : (s.lru_list.takeWhile (fun x => x != fid) ++
            fid :: (s.lru_list.dropWhile (fun x => x != fid)).tail).Nodup := by
          rw [← hsplit]
          exact hb.nodup
        have hfid_notin_dw : fid ∉ (s.lru_list.dropWhile (fun x => x != fid)).tail := by
          rcases List.nodup_append.mp hnd2 with ⟨_, hndc, _⟩
          exact (List.nodup_cons.mp hndc).1
        have hfid : ({ s with
            node_store := fun x => if x = fid then some (n0.RecordAccess ts)
              else s.node_store x,
            lru_list := s.lru_list.takeWhile (fun x => x != fid) ++
              insertBeforeLt s (n0.RecordAccess ts) fid
                ((s.lru_list.dropWhile (fun x => x != fid)).tail) } : LRUKReplacer).nodeOf fid
            = n0.RecordAccess ts :=
          nodeOf_store_some (by simp)
        have hagree : ∀ x, x ≠ fid → ({ s with
            node_store := fun x => if x = fid then some (n0.RecordAccess ts)
              else s.node_store x,
            lru_list := s.lru_list.takeWhile (fun x => x != fid) ++
              insertBeforeLt s (n0.RecordAccess ts) fid
                ((s.lru_list.dropWhile (fun x => x != fid)).tail) } : LRUKReplacer).nodeOf x
            = s.nodeOf x := by
          intro x hx
          exact nodeOf_congr (by simp [hx])
        intro f hf
        rcases List.mem_append.mp hf with htw | hins
        · have hne : f ≠ fid := mem_takeWhile_ne htw
          rw [hagree f hne]
          refine h f ?_
          rw [hsplit]
          exact List.mem_append.mpr (Or.inl htw)
        · rcases insertBeforeLt_mem.mp hins with rfl | hdw
          · rw [hfid]
            exact recordAccess_ne_nil n0 ts
          · have hne : f ≠ fid := fun hff => hfid_notin_dw (hff ▸ hdw)
            rw [hagree f hne]
            refine h f ?_
            rw [hsplit]
            exact List.mem_append.mpr (Or.inr (by simp [hdw]))
  | setEv fid b =>
    rw [step_setEv]
    cases h2 : s.node_store fid with
    | none =>
      rw [setEvictable_unknown h2]
      exact h
    | some n =>
      by_cases he : n.is_evictable = b
      · rw [setEvictable_same h2 he]
        exact h
      · rw [setEvictable_flip h2 he]
        have hfid : ({ s with
            node_store := fun x => if x = fid then some (n.SetEvictable b)
              else s.node_store x,
            curr_size := if b then s.curr_size + 1 else s.curr_size - 1 }
              : LRUKReplacer).nodeOf fid = n.SetEvictable b :=
          nodeOf_store_some (by simp)
        have hagree : ∀ x, x ≠ fid → ({ s with
            node_store := fun x => if x = fid then some (n.SetEvictable b)
              else s.node_store x,
            curr_size := if b then s.curr_size + 1 else s.curr_size - 1 }
              : LRUKReplacer).nodeOf x = s.nodeOf x := by
          intro x hx
          exact nodeOf_congr (by simp [hx])
        intro f hf
        by_cases hne : f = fid
        · subst hne
          rw [hfid, (setEvictable_key n b).1]
          have := h f hf
          rwa [nodeOf_store_some h2] at this
        · rw [hagree f hne]
          exact h f hf
  | evict =>
    rw [step_evict]
    by_cases h1 : s.curr_size = 0
    · rw [evict_empty h1]
      exact h
    · cases hfind : s.lru_list.find? (fun f => (s.nodeOf f).is_evictable) with
      | none =>
        rw [evict_notfound h1 hfind]
        exact h
      | some v =>
        rw [evict_found h1 hfind]
        have hagree : ∀ x, x ≠ v → ({ s with
            lru_list := s.lru_list.erase v,
            node_store := fun y => if y = v then none else s.node_store y,
            curr_size := s.curr_size - 1 } : LRUKReplacer).nodeOf x = s.nodeOf x := by
          intro x hx
          exact nodeOf_congr (by simp [hx])
        intro f hf
        rcases (hb.nodup.mem_erase_iff).mp hf with ⟨hne, hl⟩
        rw [hagree f hne]
        exact h f hl
  | remove fid =>
    cases h2 : s.node_store fid with
    | none =>
      rw [step_remove_ok (remove_unknown h2)]
      exact h
    | some n =>
      by_cases he : n.is_evictable = true
      · rw [step_remove_ok (remove_ok h2 he)]
        have hagree : ∀ x, x ≠ fid → ({ s with
            lru_list := s.lru_list.erase fid,
            node_store := fun y => if y = fid then none else s.node_store y,
            curr_size := s.curr_size - 1 } : LRUKReplacer).nodeOf x = s.nodeOf x := by
          intro x hx
          exact nodeOf_congr (by simp [hx])
        intro f hf
        rcases (hb.nodup.mem_erase_iff).mp hf with ⟨hne, hl⟩
        rw [hagree f hne]
        exact h f hl
      · rw [step_remove_err (remove_pinned h2 (by simpa using he))]
        exact h

/-- On a state with non-empty tracked histories and k at least 1, one
RecordAccess call touches no empty history, whatever its timestamp. -/
theorem recordAccessSafe_of_invH {s : LRUKReplacer} {fid ts : Nat}
    (hk : 1 ≤ s.k) (hb : InvB s) (h : InvH s) :
    s.recordAccessSafe fid ts = true := by
  unfold LRUKReplacer.recordAccessSafe
  by_cases h1 : s.replacer_size ≤ fid
  · rw [if_pos h1]
  · rw [if_neg h1]
    cases h2 : s.node_store fid with
    | none =>
      simp only
      refine Bool.and_eq_true_iff.mpr ⟨?_, ?_⟩
      · unfold LRUKNode.RecordAccessSafe
        have : (([] : List Nat).length == s.k) = false := by
          simp
          omega
        simp at this
        simp [this]
      · rw [List.all_eq_true]
        intro x hx
        exact ltSafe_of_ne_nil (recordAccess_ne_nil _ ts) (h x hx)
    | some n0 =>
      simp only
      have hmem : fid ∈ s.lru_list := (hb.mem_iff fid).mpr (by rw [h2]; rfl)
      have hn0ne : n0.history ≠ [] := by
        have := h fid hmem
        rwa [nodeOf_store_some h2] at this
      refine Bool.and_eq_true_iff.mpr ⟨recordAccessSafe_node_of_ne_nil hn0ne, ?_⟩
      rw [List.all_eq_true]
      intro x hx
      have hxl : x ∈ s.lru_list := by
        rw [split_at_mem hmem]
        exact List.mem_append.mpr (Or.inr (by simp [hx]))
      exact ltSafe_of_ne_nil (recordAccess_ne_nil n0 ts) (h x hxl)

/-- Every call of every trace from a state with non-empty tracked histories
and k at least 1 touches no empty history; no timestamp discipline is
assumed. -/
theorem opsSafe_of_invH : ∀ (ops : List ROp) {s : LRUKReplacer},
    1 ≤ s.k → InvB s → InvH s → s.opsSafe ops = true := by
  intro ops
  induction ops with
  | nil =>
    intro s _ _ _
    rfl
  | cons op rest ih =>
    intro s hk hb h
    rw [LRUKReplacer.opsSafe]
    have hk' : 1 ≤ (s.step op).k := by
      rw [(step_fields s op).1]
      exact hk
    refine Bool.and_eq_true_iff.mpr ⟨?_, ?_⟩
    · cases op with
      | record fid ts => exact recordAccessSafe_of_invH hk hb h
      | setEv fid b => rfl
      | evict => rfl
      | remove fid => rfl
    · exact ih hk' (invB_step op hb) (invH_step op hb h)

/-- C10.  With k at least 1, no operation of any trace on a fresh replacer -
with no condition on the timestamps record carries, so repeated or
decreasing wall-clock stamps are covered - ever reads or pops an empty
access-history list (every history front, back and pop site of
RecordAccess and of the node ordering runs on a non-empty list; Evict,
SetEvictable and Remove read no history element); with k = 0 this fails
immediately: the very first RecordAccess of any in-range frame pops the
new node's empty history. -/
theorem c10_history_access_safety (N k fid ts : Nat) (ops : List ROp)
    (hk : 1 ≤ k) (hfid : fid < N) :
    (LRUKReplacer.init N k).opsSafe ops = true ∧
    (LRUKReplacer.init N 0).recordAccessSafe fid ts = false := by
  constructor
  · exact opsSafe_of_invH ops hk (invB_init N k) (invH_init N k)
  · unfold LRUKReplacer.recordAccessSafe
    have h1 : ¬ (LRUKReplacer.init N 0).replacer_size ≤ fid := by
      show ¬ N ≤ fid
      omega
    rw [if_neg h1]
    have h2 : (LRUKReplacer.init N 0).node_store fid = none := rfl
    rw [h2]
    simp [LRUKNode.RecordAccessSafe, LRUKReplacer.init]

/-- Witness for C10: a concrete safe trace at k 1 whose timestamps repeat and
then decrease (as the wall clock can produce), and the concrete unsafe
first record at k 0. -/
theorem c10_witness :
    (LRUKReplacer.init 2 1).opsSafe [.record 0 5, .record 1 5, .record 0 3,
      .setEv 0 true, .evict] = true ∧
    (LRUKReplacer.init 2 0).recordAccessSafe 0 7 = false :=
  c10_history_access_safety 2 1 0 7
    [.record 0 5, .record 1 5, .record 0 3, .setEv 0 true, .evict]
    (by decide) (by decide)

/-! ## Claim C2: the timestamp source -/

/-- C2 (against the claimed strict monotonicity).  The source stamps each
RecordAccess with the wall clock truncated to whole seconds, not with a
per-call counter: under the realistic clock trace in which two consecutive
calls happen within the same second (a constant clock over the two call
indices), the later call records a timestamp equal to the earlier one, not
strictly larger; with k = 2, the two nodes built from these equal
timestamps are ordered by LRUKNode's comparison in neither direction, so
the history comparison no longer resolves the two frames by the order of
the calls. -/
theorem c2_wall_clock_timestamps_not_strict :
    recordedTimestamp (fun _ => 5) 1 = recordedTimestamp (fun _ => 5) 0 ∧
    ¬ recordedTimestamp (fun _ => 5) 0 < recordedTimestamp (fun _ => 5) 1 ∧
    LRUKNode.lt
      ((LRUKNode.mk [] 2 0 false).RecordAccess (recordedTimestamp (fun _ => 5) 0))
      ((LRUKNode.mk [] 2 1 false).RecordAccess (recordedTimestamp (fun _ => 5) 1))
      = false ∧
    LRUKNode.lt
      ((LRUKNode.mk [] 2 1 false).RecordAccess (recordedTimestamp (fun _ => 5) 1))
      ((LRUKNode.mk [] 2 0 false).RecordAccess (recordedTimestamp (fun _ => 5) 0))
      = false := by
  exact ⟨rfl, by decide, by decide, by decide⟩

/-! ## Claim C3: flush semantics of the guards -/

/-- C3.  For every valid read or write guard on a frame, when the frame is
dirty, Flush clears the dirty flag, submits exactly one write request
carrying the frame's bytes and the guard's page id, and waits until the
worker has completed it (the request's completion slot is fulfilled before
Flush returns); when the frame is clean, Flush submits nothing and changes
nothing.  The Disk Manager is assumed not to fail here (C4 covers the
failing case). -/
theorem c3_flush_submits_and_awaits (gr : ReadPageGuard) (gw : WritePageGuard)
    (fr fw : FrameHeader) (fails : DiskRequest → Bool)
    (hr : gr.is_valid = true) (hw : gw.is_valid = true)
    (hnof : ∀ r, fails r = false) :
    (fr.is_dirty = true →
      gr.Flush fr fails = some ({ fr with is_dirty := false },
        [({ is_write := true, data := fr.page_data, page_id := gr.page_id },
          some true)])) ∧
    (fr.is_dirty = false → gr.Flush fr fails = some (fr, [])) ∧
    (fw.is_dirty = true →
      gw.Flush fw fails = some ({ fw with is_dirty := false },
        [({ is_write := true, data := fw.page_data, page_id := gw.page_id },
          some true)])) ∧
    (fw.is_dirty = false → gw.Flush fw fails = some (fw, [])) := by
  refine ⟨?_, ?_, ?_, ?_⟩
  · intro hd
    unfold ReadPageGuard.Flush
    rw [if_pos hr, if_pos hd]
    simp [startWorkerThread, hnof]
  · intro hd
    unfold ReadPageGuard.Flush
    rw [if_pos hr, hd]
    rfl
  · intro hd
    unfold WritePageGuard.Flush
    rw [if_pos hw, if_pos hd]
    simp [startWorkerThread, hnof]
  · intro hd
    unfold WritePageGuard.Flush
    rw [if_pos hw, hd]
    rfl

/-- Witness for C3 at concrete guards and frames. -/
theorem c3_flush_witness :
    (ReadPageGuard.Flush { page_id := 4, is_valid := true }
        { frame_id := 0, page_data := [9, 9], pin_count := 1, is_dirty := true }
        (fun _ => false)
      = some ({ frame_id := 0, page_data := [9, 9], pin_count := 1, is_dirty := false },
        [({ is_write := true, data := [9, 9], page_id := 4 }, some true)])) ∧
    (WritePageGuard.Flush { page_id := 7, is_valid := true }
        { frame_id := 1, page_data := [3], pin_count := 1, is_dirty := false }
        (fun _ => false)
      = some ({ frame_id := 1, page_data := [3], pin_count := 1, is_dirty := false },
        [])) :=
  ⟨(c3_flush_submits_and_awaits { page_id := 4, is_valid := true }
      { page_id := 7, is_valid := true }
      { frame_id := 0, page_data := [9, 9], pin_count := 1, is_dirty := true }
      { frame_id := 1, page_data := [3], pin_count := 1, is_dirty := false }
      (fun _ => false) rfl rfl (fun _ => rfl)).1 rfl,
   (c3_flush_submits_and_awaits { page_id := 4, is_valid := true }
      { page_id := 7, is_valid := true }
      { frame_id := 0, page_data := [9, 9], pin_count := 1, is_dirty := true }
      { frame_id := 1, page_data := [3], pin_count := 1, is_dirty := false }
      (fun _ => false) rfl rfl (fun _ => rfl)).2.2.2 rfl⟩

/-! ## Claim C4: flush on a failing Disk Manager -/

/-- C4 (against the claimed retry semantics).  The source clears is_dirty
before submitting the write and the worker never reports failure (it either
fulfills the promise with true or dies on the escaped exception), so when
the Disk Manager fails on a dirty frame's flush, the returned frame has
is_dirty already false - not left true for a retry - and the completion
slot was never fulfilled with false (it is none: the guard would block
forever on the future).  The commented-out lines 335-338 of page_guard.cpp
show the intended clear-only-on-success behaviour. -/
theorem c4_flush_failure_clears_dirty :
    WritePageGuard.Flush { page_id := 0, is_valid := true }
      { frame_id := 0, page_data := [7, 7], pin_count := 1, is_dirty := true }
      (fun _ => true)
    = some ({ frame_id := 0, page_data := [7, 7], pin_count := 1, is_dirty := false },
        [({ is_write := true, data := [7, 7], page_id := 0 }, none)]) := by
  rfl

/-! ## Claim C9: the disk scheduler's worker -/

/-- C9 (against the claimed failure handling).  On the success path the worker
does process requests in queue order and fulfills each completion slot
exactly once with true, exiting only on the sentinel; but when the Disk
Manager throws on a request, the exception escapes the worker loop: the
request's completion slot is never fulfilled (none rather than the claimed
false), the worker dies without reaching the sentinel, and queued requests
behind the failing one are abandoned.  Evaluated at a concrete queue of one
failing write followed by the shutdown sentinel. -/
theorem c9_worker_dies_on_failure :
    startWorkerThread (fun _ => true)
      [some { is_write := true, data := [3], page_id := 0 }, none]
    = ([({ is_write := true, data := [3], page_id := 0 }, none)], false) ∧
    startWorkerThread (fun _ => false)
      [some { is_write := true, data := [3], page_id := 0 }, none]
    = ([({ is_write := true, data := [3], page_id := 0 }, some true)], true) := by
  exact ⟨rfl, rfl⟩

/-! ## Claim C8: Drop is idempotent -/

/-- Drop of an invalid read guard does nothing. -/
theorem readDrop_invalid {g : ReadPageGuard} (h : g.is_valid = false)
    (st : DropState) : ReadPageGuard.Drop g st = (g, st) := by
  unfold ReadPageGuard.Drop
  rw [h]
  rfl

/-- Drop of a valid read guard: invalidate, decrement the pin count, and mark
the frame evictable exactly when the prior count was 1 (in the sequential
model the re-check of the count under the buffer pool latch coincides with
the prior-count test). -/
theorem readDrop_valid {g : ReadPageGuard} (h : g.is_valid = true)
    (st : DropState) :
    ReadPageGuard.Drop g st =
      ({ g with is_valid := false },
       { frame := { st.frame with pin_count := st.frame.pin_count - 1 },
         evictable := if st.frame.pin_count = 1 then true else st.evictable }) := by
  unfold ReadPageGuard.Drop
  rw [h]
  by_cases hc : st.frame.pin_count = 1
  · simp [hc]
  · have : ¬ (st.frame.pin_count = 1 ∧ st.frame.pin_count - 1 = 0) := by
      intro hand
      exact hc hand.1
    simp [this, hc]

/-- Drop of an invalid write guard does nothing. -/
theorem writeDrop_invalid {g : WritePageGuard} (h : g.is_valid = false)
    (st : DropState) : WritePageGuard.Drop g st = (g, st) := by
  unfold WritePageGuard.Drop
  rw [h]
  rfl

/-- Drop of a valid write guard: additionally sets the dirty bit before
releasing. -/
theorem writeDrop_valid {g : WritePageGuard} (h : g.is_valid = true)
    (st : DropState) :
    WritePageGuard.Drop g st =
      ({ g with is_valid := false },
       { frame := { st.frame with
                      is_dirty := true,
                      pin_count := st.frame.pin_count - 1 },
         evictable := if st.frame.pin_count = 1 then true else st.evictable }) := by
  unfold WritePageGuard.Drop
  rw [h]
  by_cases hc : st.frame.pin_count = 1
  · simp [hc]
  · have : ¬ (st.frame.pin_count = 1 ∧ st.frame.pin_count - 1 = 0) := by
      intro hand
      exact hc hand.1
    simp [this, hc]

/-- C8.  Drop is idempotent for both guard kinds: the first call invalidates
the guard and decrements the pin count exactly once; a second call (the
destructor path included, since the destructor just calls Drop) changes
nothing; on an already-invalid guard Drop is a no-op. -/
theorem c8_drop_idempotent (gr : ReadPageGuard) (gw : WritePageGuard)
    (str stw : DropState) :
    (ReadPageGuard.Drop (ReadPageGuard.Drop gr str).1 (ReadPageGuard.Drop gr str).2
      = ReadPageGuard.Drop gr str) ∧
    (gr.is_valid = true → (ReadPageGuard.Drop gr str).1.is_valid = false ∧
      (ReadPageGuard.Drop gr str).2.frame.pin_count + 1 = str.frame.pin_count
        ∨ str.frame.pin_count = 0) ∧
    (gr.is_valid = false → ReadPageGuard.Drop gr str = (gr, str)) ∧
    (WritePageGuard.Drop (WritePageGuard.Drop gw stw).1 (WritePageGuard.Drop gw stw).2
      = WritePageGuard.Drop gw stw) ∧
    (gw.is_valid = true → (WritePageGuard.Drop gw stw).1.is_valid = false ∧
      (WritePageGuard.Drop gw stw).2.frame.pin_count + 1 = stw.frame.pin_count
        ∨ stw.frame.pin_count = 0) ∧
    (gw.is_valid = false → WritePageGuard.Drop gw stw = (gw, stw)) := by
  refine ⟨?_, ?_, fun h => readDrop_invalid h str, ?_, ?_,
    fun h => writeDrop_invalid h stw⟩
  · by_cases h : gr.is_valid = true
    · rw [readDrop_valid h str]
      exact readDrop_invalid rfl _
    · have hf : gr.is_valid = false := by simpa using h
      rw [readDrop_invalid hf str]
      exact readDrop_invalid hf str
  · intro h
    rw [readDrop_valid h str]
    by_cases hz : str.frame.pin_count = 0
    · exact Or.inr hz
    · refine Or.inl ⟨rfl, ?_⟩
      show str.frame.pin_count - 1 + 1 = str.frame.pin_count
      omega
  · by_cases h : gw.is_valid = true
    · rw [writeDrop_valid h stw]
      exact writeDrop_invalid rfl _
    · have hf : gw.is_valid = false := by simpa using h
      rw [writeDrop_invalid hf stw]
      exact writeDrop_invalid hf stw
  · intro h
    rw [writeDrop_valid h stw]
    by_cases hz : stw.frame.pin_count = 0
    · exact Or.inr hz
    · refine Or.inl ⟨rfl, ?_⟩
      show stw.frame.pin_count - 1 + 1 = stw.frame.pin_count
      omega

/-- Witness for C8 at a concrete guard and frame with two pins. -/
theorem c8_drop_witness :
    (ReadPageGuard.Drop
        (ReadPageGuard.Drop { page_id := 1, is_valid := true }
          { frame := { frame_id := 0, page_data := [],
                         pin_count := 2, is_dirty := false },
            evictable := false }).1
        (ReadPageGuard.Drop { page_id := 1, is_valid := true }
          { frame := { frame_id := 0, page_data := [],
                         pin_count := 2, is_dirty := false },
            evictable := false }).2
      = ReadPageGuard.Drop { page_id := 1, is_valid := true }
          { frame := { frame_id := 0, page_data := [],
                         pin_count := 2, is_dirty := false },
            evictable := false }) ∧
    ((ReadPageGuard.Drop { page_id := 1, is_valid := true }
        { frame := { frame_id := 0, page_data := [],
                       pin_count := 2, is_dirty := false },
          evictable := false }).1.is_valid = false ∧
      (ReadPageGuard.Drop { page_id := 1, is_valid := true }
        { frame := { frame_id := 0, page_data := [],
                       pin_count := 2, is_dirty := false },
          evictable := false }).2.frame.pin_count + 1 = 2
        ∨ (2 : Nat) = 0) :=
  ⟨(c8_drop_idempotent { page_id := 1, is_valid := true }
      { page_id := 1, is_valid := true }
      { frame := { frame_id := 0, page_data := [],
                     pin_count := 2, is_dirty := false },
        evictable := false }
      { frame := { frame_id := 0, page_data := [],
                     pin_count := 2, is_dirty := false },
        evictable := false }).1,
   (c8_drop_idempotent { page_id := 1, is_valid := true }
      { page_id := 1, is_valid := true }
      { frame := { frame_id := 0, page_data := [],
                     pin_count := 2, is_dirty := false },
        evictable := false }
      { frame := { frame_id := 0, page_data := [],
                     pin_count := 2, is_dirty := false },
        evictable := false }).2.1 rfl⟩

/-! ## Claim C5: the pin protocol across several guards on one frame -/

/-- Invalidating a live guard slot lowers the live count by one. -/
theorem liveCount_set_false : ∀ (l : List (Bool × Bool)) (i : Nat) (w : Bool),
    (l.getD i (false, false)).1 = true →
    ((l.set i (false, w)).filter fun g => g.1).length + 1
      = (l.filter fun g => g.1).length := by
  intro l
  induction l with
  | nil =>
    intro i w h
    simp [List.getD] at h
  | cons a as ih =>
    intro i w h
    cases i with
    | zero =>
      simp only [List.getD_cons_zero] at h
      simp [List.set, List.filter_cons, h]
    | succ i =>
      simp only [List.getD_cons_succ] at h
      simp only [List.set, List.filter_cons]
      by_cases ha : a.1 = true
      · simp only [ha, if_pos]
        simp
        have := ih i w h
        omega
      · have haf : a.1 = false := by simpa using ha
        simp only [haf]
        simp
        exact ih i w h

/-- Re-invalidating a dead guard slot keeps the live count. -/
theorem liveCount_set_false_same : ∀ (l : List (Bool × Bool)) (i : Nat) (w : Bool),
    (l.getD i (false, false)).1 = false →
    ((l.set i (false, w)).filter fun g => g.1).length
      = (l.filter fun g => g.1).length := by
  intro l
  induction l with
  | nil =>
    intro i w _
    simp
  | cons a as ih =>
    intro i w h
    cases i with
    | zero =>
      simp only [List.getD_cons_zero] at h
      simp [List.set, List.filter_cons, h]
    | succ i =>
      simp only [List.getD_cons_succ] at h
      simp only [List.set, List.filter_cons]
      by_cases ha : a.1 = true
      · simp only [ha, if_pos]
        simp
        exact ih i w h
      · have haf : a.1 = false := by simpa using ha
        simp only [haf]
        simp
        exact ih i w h

/-- A live guard slot makes the live count positive. -/
theorem livePos_of_getD_true : ∀ (l : List (Bool × Bool)) (i : Nat),
    (l.getD i (false, false)).1 = true →
    1 ≤ (l.filter fun g => g.1).length := by
  intro l
  induction l with
  | nil =>
    intro i h
    simp [List.getD] at h
  | cons a as ih =>
    intro i h
    cases i with
    | zero =>
      simp only [List.getD_cons_zero] at h
      simp [List.filter_cons, h]
    | succ i =>
      simp only [List.getD_cons_succ] at h
      simp only [List.filter_cons]
      by_cases ha : a.1 = true
      · simp [ha]
      · have haf : a.1 = false := by simpa using ha
        simp [haf]
        exact ih i h

/-- Dropping a live write guard: invalidate its slot, set the dirty bit,
decrement the pin count, and mark the frame evictable exactly when the
prior pin count was 1. -/
theorem frameSys_drop_live_write {s : FrameSys} {i : Nat}
    (h1 : s.guards.getD i (false, false) = (true, true)) :
    s.drop i =
      { st := { frame := { s.st.frame with
                  is_dirty := true,
                  pin_count := s.st.frame.pin_count - 1 },
                evictable := if s.st.frame.pin_count = 1 then true
                  else s.st.evictable },
        guards := s.guards.set i (false, true) } := by
  unfold FrameSys.drop
  rw [h1]
  show ({ st := (WritePageGuard.Drop { page_id := 0, is_valid := true } s.st).2,
          guards := s.guards.set i
            ((WritePageGuard.Drop { page_id := 0, is_valid := true } s.st).1.is_valid,
              true) } : FrameSys) = _
  rw [writeDrop_valid rfl]

/-- Dropping a live read guard: as the write case but without the dirty
bit. -/
theorem frameSys_drop_live_read {s : FrameSys} {i : Nat}
    (h1 : s.guards.getD i (false, false) = (true, false)) :
    s.drop i =
      { st := { frame := { s.st.frame with
                  pin_count := s.st.frame.pin_count - 1 },
                evictable := if s.st.frame.pin_count = 1 then true
                  else s.st.evictable },
        guards := s.guards.set i (false, false) } := by
  unfold FrameSys.drop
  rw [h1]
  show ({ st := (ReadPageGuard.Drop { page_id := 0, is_valid := true } s.st).2,
          guards := s.guards.set i
            ((ReadPageGuard.Drop { page_id := 0, is_valid := true } s.st).1.is_valid,
              false) } : FrameSys) = _
  rw [readDrop_valid rfl]

/-- Dropping a dead guard slot changes neither the frame nor the evictable
bit. -/
theorem frameSys_drop_dead {s : FrameSys} {i : Nat} {w : Bool}
    (h1 : s.guards.getD i (false, false) = (false, w)) :
    s.drop i = { st := s.st, guards := s.guards.set i (false, w) } := by
  unfold FrameSys.drop
  rw [h1]
  cases w with
  | true =>
    show ({ st := (WritePageGuard.Drop { page_id := 0, is_valid := false } s.st).2,
            guards := s.guards.set i
              ((WritePageGuard.Drop { page_id := 0, is_valid := false } s.st).1.is_valid,
                true) } : FrameSys) = _
    rw [writeDrop_invalid rfl]
  | false =>
    show ({ st := (ReadPageGuard.Drop { page_id := 0, is_valid := false } s.st).2,
            guards := s.guards.set i
              ((ReadPageGuard.Drop { page_id := 0, is_valid := false } s.st).1.is_valid,
                false) } : FrameSys) = _
    rw [readDrop_invalid rfl]

/-- Reachable frame states: the pin count equals the number of live guards,
and a frame with a live guard is never evictable. -/
theorem frameSys_inv : ∀ (evs : List GEvent) (s : FrameSys),
    s.st.frame.pin_count = s.live → (0 < s.live → s.st.evictable = false) →
    (s.run evs).st.frame.pin_count = (s.run evs).live ∧
      (0 < (s.run evs).live → (s.run evs).st.evictable = false) := by
  intro evs
  induction evs with
  | nil =>
    intro s h1 h2
    exact ⟨h1, h2⟩
  | cons e rest ih =>
    intro s h1 h2
    rw [FrameSys.run]
    cases e with
    | acquire w =>
      refine ih _ ?_ ?_
      · show s.st.frame.pin_count + 1
          = ((s.guards ++ [(true, w)]).filter fun g => g.1).length
        rw [List.filter_append]
        simp only [FrameSys.live] at h1
        simp
        omega
      · intro _
        rfl
    | drop i =>
      simp only [FrameSys.step]
      rcases hg : s.guards.getD i (false, false) with ⟨gv, gw⟩
      cases gv with
      | false =>
        have hcount := liveCount_set_false_same s.guards i gw (by rw [hg])
        refine ih _ ?_ ?_
        · rw [frameSys_drop_dead hg]
          show s.st.frame.pin_count
            = ((s.guards.set i (false, gw)).filter fun g => g.1).length
          simp only [FrameSys.live] at h1
          omega
        · rw [frameSys_drop_dead hg]
          intro hpos
          show s.st.evictable = false
          refine h2 ?_
          have hpos2 : 0 < ((s.guards.set i (false, gw)).filter fun g => g.1).length := by
            simpa [FrameSys.live] using hpos
          simp only [FrameSys.live]
          omega
      | true =>
        have hlive : 1 ≤ (s.guards.filter fun g => g.1).length :=
          livePos_of_getD_true s.guards i (by rw [hg])
        have hcount := liveCount_set_false s.guards i gw (by rw [hg])
        have hdrop : s.drop i =
            { st := { frame := { s.st.frame with
                        is_dirty := if gw then true else s.st.frame.is_dirty,
                        pin_count := s.st.frame.pin_count - 1 },
                      evictable := if s.st.frame.pin_count = 1 then true
                        else s.st.evictable },
              guards := s.guards.set i (false, gw) } := by
          cases gw with
          | true => simpa using frameSys_drop_live_write hg
          | false => simpa using frameSys_drop_live_read hg
        refine ih _ ?_ ?_
        · rw [hdrop]
          show s.st.frame.pin_count - 1
            = ((s.guards.set i (false, gw)).filter fun g => g.1).length
          simp only [FrameSys.live] at h1
          omega
        · rw [hdrop]
          intro hpos
          have hpos2 : 0 < ((s.guards.set i (false, gw)).filter fun g => g.1).length := by
            simpa [FrameSys.live] using hpos
          show (if s.st.frame.pin_count = 1 then true else s.st.evictable) = false
          have hne1 : ¬ s.st.frame.pin_count = 1 := by
            simp only [FrameSys.live] at h1
            omega
          rw [if_neg hne1]
          refine h2 ?_
          simp only [FrameSys.live]
          omega

/-- C5.  Along every guard event sequence on one frame (issuance modelled from
the spec, Drop from the source): the pin count always equals the number of
live guards; while at least one guard is live the frame is not evictable;
and dropping a live guard decrements the pin count and marks the frame
evictable exactly when that guard was the last live one. -/
theorem c5_pin_protocol (evs : List GEvent) (i : Nat) :
    ((FrameSys.run FrameSys.start evs).st.frame.pin_count
      = (FrameSys.run FrameSys.start evs).live) ∧
    (0 < (FrameSys.run FrameSys.start evs).live →
      (FrameSys.run FrameSys.start evs).st.evictable = false) ∧
    (((FrameSys.run FrameSys.start evs).guards.getD i (false, false)).1 = true →
      ((FrameSys.run FrameSys.start evs).drop i).st.frame.pin_count + 1
          = (FrameSys.run FrameSys.start evs).st.frame.pin_count ∧
        (((FrameSys.run FrameSys.start evs).drop i).st.evictable = true ↔
          (FrameSys.run FrameSys.start evs).live = 1)) := by
  obtain ⟨h1, h2⟩ := frameSys_inv evs FrameSys.start rfl (fun _ => rfl)
  refine ⟨h1, h2, ?_⟩
  intro hv
  rcases hg : (FrameSys.run FrameSys.start evs).guards.getD i (false, false)
    with ⟨gv, gw⟩
  rw [hg] at hv
  simp at hv
  subst hv
  have hlive : 1 ≤ (FrameSys.run FrameSys.start evs).live := by
    exact livePos_of_getD_true _ i (by rw [hg])
  have hdrop : (FrameSys.run FrameSys.start evs).drop i =
      { st := { frame := { (FrameSys.run FrameSys.start evs).st.frame with
                  is_dirty := if gw then true
                    else (FrameSys.run FrameSys.start evs).st.frame.is_dirty,
                  pin_count := (FrameSys.run FrameSys.start evs).st.frame.pin_count - 1 },
                evictable := if (FrameSys.run FrameSys.start evs).st.frame.pin_count = 1
                  then true else (FrameSys.run FrameSys.start evs).st.evictable },
        guards := (FrameSys.run FrameSys.start evs).guards.set i (false, gw) } := by
    cases gw with
    | true => simpa using frameSys_drop_live_write hg
    | false => simpa using frameSys_drop_live_read hg
  rw [hdrop]
  constructor
  · show (FrameSys.run FrameSys.start evs).st.frame.pin_count - 1 + 1 = _
    omega
  · show (if (FrameSys.run FrameSys.start evs).st.frame.pin_count = 1
      then true else (FrameSys.run FrameSys.start evs).st.evictable) = true ↔ _
    by_cases hone : (FrameSys.run FrameSys.start evs).live = 1
    · rw [if_pos (by omega)]
      simp [hone]
    · have hgt : 1 < (FrameSys.run FrameSys.start evs).live := by omega
      rw [if_neg (by omega)]
      rw [h2 (by omega)]
      simp
      omega

/-- Witness for C5: two guards issued, the first dropped; dropping the second
(and last) live guard decrements the pin count to zero and makes the frame
evictable. -/
theorem c5_witness :
    ((FrameSys.run FrameSys.start [.acquire false, .acquire true, .drop 0]).st.frame.pin_count
      = (FrameSys.run FrameSys.start [.acquire false, .acquire true, .drop 0]).live) ∧
    ((FrameSys.run FrameSys.start [.acquire false, .acquire true, .drop 0]).st.evictable
      = false) ∧
    ((FrameSys.run FrameSys.start [.acquire false, .acquire true, .drop 0]).drop 1).st.frame.pin_count + 1
      = (FrameSys.run FrameSys.start [.acquire false, .acquire true, .drop 0]).st.frame.pin_count ∧
    (((FrameSys.run FrameSys.start [.acquire false, .acquire true, .drop 0]).drop 1).st.evictable = true ↔
      (FrameSys.run FrameSys.start [.acquire false, .acquire true, .drop 0]).live = 1) := by
  have h := c5_pin_protocol [.acquire false, .acquire true, .drop 0] 1
  have h3 := h.2.2 (by decide)
  exact ⟨h.1, h.2.1 (by decide), h3.1, h3.2⟩
